import Mathlib

/-!
Verification of the iamgo analysis core against its specification.

Shallow embedding conventions:
* Go strings are embedded as `List Char`; `strings.HasPrefix`, `strings.HasSuffix`,
  `strings.TrimSuffix`, `strings.EqualFold` (ASCII simple folding), `strings.ToLower`
  and `strings.Split` become the `go*` helpers below.
* `*ssa.Function` values are embedded as indices (`Nat`) into a function table;
  the call graph (`callgraph.Graph`) is an association list from node to its
  out-edge list, and `callgraph.Edge` keeps only the caller/callee endpoints
  that the path logic inspects.
* Go maps are embedded as association lists in one (arbitrary) iteration order;
  two lists that are permutations of each other denote the same map.
* `log.Fatalf`/`os.Exit` become an `Except` error result of the orchestration
  function `run`; the outcome of the external `packages.Load`/`ssautil`/`rta`
  pipeline (which is not part of this repository) is an input to `run`.
-/

/-- Convert a string literal to the `List Char` embedding of Go strings. -/
def str (s : String) : List Char := s.toList

/-- Embedding of `strings.HasPrefix s pat`. -/
def goStartsWith (s pat : List Char) : Bool := pat.isPrefixOf s

/-- Embedding of `strings.HasSuffix s pat`. -/
def goEndsWith (s pat : List Char) : Bool := pat.isSuffixOf s

/-- Embedding of `strings.TrimSuffix s pat`. -/
def goTrimSuffix (s pat : List Char) : List Char :=
  if goEndsWith s pat then s.take (s.length - pat.length) else s

/-- Embedding of `strings.ToLower` (ASCII). -/
def goToLower (s : List Char) : List Char := s.map Char.toLower

/-- Embedding of `strings.EqualFold` (ASCII simple case folding). -/
def equalFold (s t : List Char) : Bool := goToLower s == goToLower t

/-- Embedding of `strings.Split s sep` for a single-character separator. -/
def splitOnChar (sep : Char) : List Char → List (List Char)
  | [] => [[]]
  | c :: rest =>
    let r := splitOnChar sep rest
    if c == sep then [] :: r
    else
      match r with
      | h :: t => (c :: h) :: t
      | [] => [[c]]

/-- A call-graph edge (`callgraph.Edge`), reduced to the caller/callee
endpoints used by the path-finding logic of `graph.go`. -/
structure Edge where
  caller : Nat
  callee : Nat
deriving DecidableEq, Repr

/-- The call graph (`callgraph.Graph`): each node with its list of outgoing
edges (`node.Out`), in iteration order. -/
structure CallGraph where
  out : List (Nat × List Edge)
deriving DecidableEq, Repr

/-- Out-edge list of a node (`g.callgraph.Nodes[n].Out`); a node with no
entry has no outgoing edges. -/
def outEdges (g : CallGraph) (n : Nat) : List Edge :=
  match g.out.lookup n with
  | some es => es
  | none => []

/-- Executable well-formedness check: each edge stored under node `n` has
caller `n`, as `callgraph` guarantees for `node.Out`. -/
def CallGraph.wfB (g : CallGraph) : Bool :=
  g.out.all fun p => p.2.all fun e => e.caller == p.1

/-- Well-formedness of a call graph: every stored edge's caller field is the
node whose out-list contains it. -/
def CallGraph.wf (g : CallGraph) : Prop :=
  ∀ n, ∀ e ∈ outEdges g n, e.caller = n

theorem lookup_mem {α β : Type} [BEq α] [LawfulBEq α] {l : List (α × β)} {k : α} {v : β}
    (h : l.lookup k = some v) : (k, v) ∈ l := by
  induction l with
  | nil => simp [List.lookup] at h
  | cons p rest ih =>
    obtain ⟨a, b⟩ := p
    rw [List.lookup] at h
    split at h
    · next heq =>
      have hk : k = a := eq_of_beq heq
      have hv : b = v := by injection h
      subst hk; subst hv
      exact List.mem_cons_self _ _
    · next => exact List.mem_cons_of_mem _ (ih h)

theorem wf_of_wfB {g : CallGraph} (h : g.wfB = true) : g.wf := by
  intro n e he
  unfold outEdges at he
  cases hl : g.out.lookup n with
  | none => rw [hl] at he; simp at he
  | some es =>
    rw [hl] at he
    have hmem : (n, es) ∈ g.out := lookup_mem hl
    unfold CallGraph.wfB at h
    rw [List.all_eq_true] at h
    have h2 := h _ hmem
    rw [List.all_eq_true] at h2
    have h3 := h2 _ he
    simpa using h3

/-- A path in the call graph from `s`: `isPath g s p t` holds when `p` is an
ordered sequence of call edges leading from node `s` to node `t`, each edge
taken from its source node's out-list. -/
def isPath (g : CallGraph) : Nat → List Edge → Nat → Prop
  | s, [], t => s = t
  | s, e :: p, t => e ∈ outEdges g s ∧ isPath g e.callee p t

instance isPathDec (g : CallGraph) : ∀ s p t, Decidable (isPath g s p t)
  | _, [], _ => inferInstanceAs (Decidable (_ = _))
  | s, e :: p, t =>
    have : Decidable (isPath g e.callee p t) := isPathDec g e.callee p t
    inferInstanceAs (Decidable (_ ∧ _))

/-- Node `t` is reachable from node `s` in graph `g`. -/
def Reaches (g : CallGraph) (s t : Nat) : Prop := ∃ p, isPath g s p t

/-- Embedding of the back-edge walk at the end of `bfs` (`graph.go:215-226`):
follow `visited[current]` until a `nil` edge, collecting edges, then reverse.
The fuel argument bounds the loop; `visited.length` is always enough. -/
def buildPath (visited : List (Nat × Option Edge)) : Nat → Nat → List Edge → List Edge
  | 0, _, path => path.reverse
  | fuel + 1, current, path =>
    match visited.lookup current with
    | some (some e) => buildPath visited fuel e.caller (path ++ [e])
    | _ => path.reverse

/-- Embedding of the edge loop of `bfs` (`graph.go:229-234`): mark each
unvisited callee with its incoming edge and enqueue it. -/
def processEdges (visited : List (Nat × Option Edge)) (queue : List Nat) :
    List Edge → List (Nat × Option Edge) × List Nat
  | [] => (visited, queue)
  | e :: es =>
    match visited.lookup e.callee with
    | some _ => processEdges visited queue es
    | none => processEdges (visited ++ [(e.callee, some e)]) (queue ++ [e.callee]) es

/-- Embedding of the main loop of `bfs` (`graph.go:210-235`). The result is
`none` when the fuel runs out (never happens for `bfsFuel`), `some none` when
the queue empties without finding the target (Go returns `nil`), and
`some (some p)` when the target is dequeued and path `p` reconstructed. -/
def bfsLoop (g : CallGraph) (target : Nat) :
    Nat → List (Nat × Option Edge) → List Nat → Option (Option (List Edge))
  | 0, _, _ => none
  | fuel + 1, visited, queue =>
    match queue with
    | [] => some none
    | current :: rest =>
      if current = target then
        some (some (buildPath visited visited.length current []))
      else
        let st := processEdges visited rest (outEdges g current)
        bfsLoop g target fuel st.1 st.2

/-- All node names mentioned by the graph structure. -/
def graphNodes (g : CallGraph) : List Nat :=
  g.out.flatMap fun p => p.1 :: p.2.flatMap fun e => [e.caller, e.callee]

/-- Fuel that always suffices for `bfsLoop`: one more than the number of
node mentions (each loop iteration dequeues a node that was visited exactly
once, and only mentioned nodes plus the start are ever visited). -/
def bfsFuel (g : CallGraph) (start : Nat) : Nat := (start :: graphNodes g).length + 1

/-- Embedding of `bfs` (`graph.go:204-238`): breadth-first search from
`start`, `visited` seeded with the start node and a `nil` back edge. -/
def bfs (g : CallGraph) (start target : Nat) : Option (List Edge) :=
  match bfsLoop g target (bfsFuel g start) [(start, none)] [start] with
  | some r => r
  | none => none

/-- Embedding of `findPath` (`graph.go:190-200`): try each root in order and
return the first non-nil BFS result. -/
def findPath (g : CallGraph) (roots : List Nat) (target : Nat) : Option (List Edge) :=
  match roots with
  | [] => none
  | root :: rest =>
    match bfs g root target with
    | some path => some path
    | none => findPath g rest target

/-- The nodes recorded in a `visited` association list, in insertion order. -/
def keysOf (V : List (Nat × Option Edge)) : List Nat := V.map Prod.fst

theorem keysOf_append (V W : List (Nat × Option Edge)) :
    keysOf (V ++ W) = keysOf V ++ keysOf W := by
  simp [keysOf]

theorem lookup_none_iff {V : List (Nat × Option Edge)} {n : Nat} :
    V.lookup n = none ↔ n ∉ keysOf V := by
  induction V with
  | nil => simp [List.lookup, keysOf]
  | cons p rest ih =>
    obtain ⟨a, b⟩ := p
    by_cases h : n = a
    · subst h
      simp [List.lookup, keysOf]
    · have hb : (n == a) = false := by simpa using h
      simp [List.lookup, hb, keysOf, h, ih]

theorem lookup_append_left {V W : List (Nat × Option Edge)} {n : Nat}
    (h : n ∈ keysOf V) : (V ++ W).lookup n = V.lookup n := by
  induction V with
  | nil => simp [keysOf] at h
  | cons p rest ih =>
    obtain ⟨a, b⟩ := p
    by_cases hna : n = a
    · subst hna
      simp [List.lookup]
    · have hb : (n == a) = false := by simpa using hna
      have h' : n ∈ keysOf rest := by
        simp [keysOf] at h ⊢
        rcases h with h | h
        · exact absurd h hna
        · exact h
      simp [List.lookup, hb, ih h']

theorem lookup_append_right {V W : List (Nat × Option Edge)} {n : Nat}
    (h : n ∉ keysOf V) : (V ++ W).lookup n = W.lookup n := by
  induction V with
  | nil => simp
  | cons p rest ih =>
    obtain ⟨a, b⟩ := p
    have hna : n ≠ a := by
      intro he
      exact h (by simp [keysOf, he])
    have h' : n ∉ keysOf rest := by
      intro hm
      exact h (by simp [keysOf] at hm ⊢; exact Or.inr hm)
    have hb : (n == a) = false := by simpa using hna
    simp [List.lookup, hb, ih h']

/-- Structural invariant of the BFS `visited` map, processed in insertion
order with `seen` the keys inserted so far: keys are never re-inserted, only
the very first entry (the start node) carries a `nil` back edge, and every
other entry records a real graph edge that leads to it from an earlier key. -/
def visOk (g : CallGraph) : List Nat → List (Nat × Option Edge) → Prop
  | _, [] => True
  | seen, (n, oe) :: rest =>
    n ∉ seen ∧
    (match oe with
     | none => seen = []
     | some e => e ∈ outEdges g e.caller ∧ e.callee = n ∧ e.caller ∈ seen) ∧
    visOk g (seen ++ [n]) rest

theorem keysOf_cons (a : Nat) (b : Option Edge) (rest : List (Nat × Option Edge)) :
    keysOf ((a, b) :: rest) = a :: keysOf rest := rfl

theorem visOk_append {g : CallGraph} {seen : List Nat} {V W : List (Nat × Option Edge)} :
    visOk g seen (V ++ W) ↔ visOk g seen V ∧ visOk g (seen ++ keysOf V) W := by
  induction V generalizing seen with
  | nil => simp [visOk, keysOf]
  | cons p rest ih =>
    obtain ⟨a, b⟩ := p
    simp only [List.cons_append, visOk, keysOf_cons, List.append_eq, ih, List.append_assoc,
      List.singleton_append]
    tauto

theorem visOk_nodup {g : CallGraph} :
    ∀ {V : List (Nat × Option Edge)} {seen : List Nat}, visOk g seen V → seen.Nodup →
      (seen ++ keysOf V).Nodup := by
  intro V
  induction V with
  | nil => intro seen _ hs; simpa [keysOf] using hs
  | cons p rest ih =>
    obtain ⟨a, b⟩ := p
    intro seen hv hs
    obtain ⟨hna, _, hrest⟩ := hv
    have h1 : (seen ++ [a]).Nodup := by
      simp [List.nodup_append, hs, hna]
    have := ih hrest h1
    simpa [keysOf_cons, List.append_assoc] using this

theorem visOk_lookup_some {g : CallGraph} :
    ∀ {V : List (Nat × Option Edge)} {seen : List Nat} {n : Nat} {e : Edge},
      visOk g seen V → V.lookup n = some (some e) →
      e ∈ outEdges g e.caller ∧ e.callee = n ∧ (e.caller ∈ seen ∨ e.caller ∈ keysOf V) := by
  intro V
  induction V with
  | nil => intro seen n e _ h; simp [List.lookup] at h
  | cons p rest ih =>
    obtain ⟨a, b⟩ := p
    intro seen n e hv h
    obtain ⟨_, hb, hrest⟩ := hv
    rw [List.lookup] at h
    split at h
    · next heq =>
      have hn : n = a := by simpa using heq
      subst hn
      have hbe : b = some e := by injection h
      subst hbe
      obtain ⟨h1, h2, h3⟩ := hb
      exact ⟨h1, h2, Or.inl h3⟩
    · next =>
      obtain ⟨h1, h2, h3⟩ := ih hrest h
      refine ⟨h1, h2, ?_⟩
      rcases h3 with h3 | h3
      · rcases List.mem_append.mp h3 with h4 | h4
        · exact Or.inl h4
        · simp at h4
          exact Or.inr (by simp [keysOf_cons, h4])
      · exact Or.inr (by simp [keysOf_cons, h3])

theorem visOk_lookup_none {g : CallGraph} :
    ∀ {V : List (Nat × Option Edge)} {seen : List Nat} {n : Nat},
      visOk g seen V → V.lookup n = some none →
      seen = [] ∧ V.head? = some (n, none) := by
  intro V
  induction V with
  | nil => intro seen n _ h; simp [List.lookup] at h
  | cons p rest ih =>
    obtain ⟨a, b⟩ := p
    intro seen n hv h
    obtain ⟨_, hb, hrest⟩ := hv
    rw [List.lookup] at h
    split at h
    · next heq =>
      have hn : n = a := by simpa using heq
      have hbe : b = none := by injection h
      subst hbe hn
      exact ⟨hb, rfl⟩
    · next =>
      obtain ⟨h1, _⟩ := ih hrest h
      simp at h1

theorem buildPath_acc (V : List (Nat × Option Edge)) :
    ∀ (f : Nat) (n : Nat) (acc : List Edge),
      buildPath V f n acc = buildPath V f n [] ++ acc.reverse := by
  intro f
  induction f with
  | zero => intro n acc; simp [buildPath]
  | succ f ih =>
    intro n acc
    rw [buildPath, buildPath]
    cases h : V.lookup n with
    | none => simp
    | some oe =>
      cases oe with
      | none => simp
      | some e =>
        dsimp only
        rw [ih e.caller (acc ++ [e]), ih e.caller ([] ++ [e])]
        simp

theorem buildPath_congr {g : CallGraph} {V W : List (Nat × Option Edge)}
    (hv : visOk g [] V)
    (hagree : ∀ k ∈ keysOf V, W.lookup k = V.lookup k) :
    ∀ (f : Nat) (n : Nat) (acc : List Edge), n ∈ keysOf V →
      buildPath W f n acc = buildPath V f n acc := by
  intro f
  induction f with
  | zero => intro n acc _; simp [buildPath]
  | succ f ih =>
    intro n acc hn
    rw [buildPath, buildPath, hagree n hn]
    cases h : V.lookup n with
    | none =>
      exact absurd (lookup_none_iff.mp h) (fun hc => hc hn)
    | some oe =>
      cases oe with
      | none => rfl
      | some e =>
        have hc : e.caller ∈ keysOf V := by
          have := visOk_lookup_some hv h
          rcases this.2.2 with h3 | h3
          · simp at h3
          · exact h3
        exact ih e.caller (acc ++ [e]) hc

theorem isPath_snoc {g : CallGraph} :
    ∀ {p : List Edge} {s c : Nat} {e : Edge},
      isPath g s p c → e ∈ outEdges g c → isPath g s (p ++ [e]) e.callee := by
  intro p
  induction p with
  | nil =>
    intro s c e hp he
    rw [show s = c from hp]
    exact ⟨he, rfl⟩
  | cons e' p ih =>
    intro s c e hp he
    obtain ⟨h1, h2⟩ := hp
    exact ⟨h1, ih h2 he⟩

theorem isPath_snoc_inv {g : CallGraph} :
    ∀ {p : List Edge} {s t : Nat} {e : Edge},
      isPath g s (p ++ [e]) t → ∃ c, isPath g s p c ∧ e ∈ outEdges g c ∧ e.callee = t := by
  intro p
  induction p with
  | nil =>
    intro s t e hp
    obtain ⟨h1, h2⟩ := hp
    exact ⟨s, rfl, h1, h2⟩
  | cons e' p ih =>
    intro s t e hp
    obtain ⟨h1, h2⟩ := hp
    obtain ⟨c, hc1, hc2, hc3⟩ := ih h2
    exact ⟨c, ⟨h1, hc1⟩, hc2, hc3⟩

theorem isPath_closed {g : CallGraph} {K : List Nat}
    (hcl : ∀ n ∈ K, ∀ e ∈ outEdges g n, e.callee ∈ K) :
    ∀ {p : List Edge} {s t : Nat}, s ∈ K → isPath g s p t → t ∈ K := by
  intro p
  induction p with
  | nil => intro s t hs hp; rwa [show s = t from hp] at hs
  | cons e p ih =>
    intro s t hs hp
    obtain ⟨h1, h2⟩ := hp
    exact ih (hcl s hs e h1) h2

/-- BFS level of a visited node: the length of its reconstructed path. -/
def lvl (V : List (Nat × Option Edge)) (n : Nat) : Nat :=
  (buildPath V V.length n []).length

theorem buildPath_spec {g : CallGraph} {s : Nat} :
    ∀ {V : List (Nat × Option Edge)}, visOk g [] V → V.head? = some (s, none) →
      ∀ {n : Nat}, n ∈ keysOf V → ∀ {f : Nat}, V.length ≤ f →
        isPath g s (buildPath V f n []) n ∧ buildPath V f n [] = buildPath V V.length n [] := by
  intro V
  induction V using List.reverseRecOn with
  | nil => intro _ _ n hn; simp [keysOf] at hn
  | append_singleton V p ih =>
    obtain ⟨m, oe⟩ := p
    intro hv hhd n hn f hf
    rw [visOk_append] at hv
    obtain ⟨hvV, hlast⟩ := hv
    simp only [List.nil_append, visOk] at hlast
    obtain ⟨hmV, hoe, -⟩ := hlast
    have hagree : ∀ k ∈ keysOf V, (V ++ [(m, oe)]).lookup k = V.lookup k :=
      fun k hk => lookup_append_left hk
    have hc := buildPath_congr hvV hagree
    have hVhd : V ≠ [] → V.head? = some (s, none) := by
      intro hne
      cases V with
      | nil => exact absurd rfl hne
      | cons q V₂ => simpa using hhd
    have hlen : (V ++ [(m, oe)]).length = V.length + 1 := by simp
    rw [keysOf_append] at hn
    rcases List.mem_append.mp hn with hn | hn
    · have hne : V ≠ [] := by
        intro h; subst h; simp [keysOf] at hn
      have hfV : V.length ≤ f := by
        rw [hlen] at hf; omega
      have ih1 := ih hvV (hVhd hne) hn hfV
      have ih2 := ih hvV (hVhd hne) hn (show V.length ≤ V.length from le_refl _)
      have ih3 := ih hvV (hVhd hne) hn (show V.length ≤ (V ++ [(m, oe)]).length by rw [hlen]; omega)
      constructor
      · rw [hc f n [] hn]
        exact ih1.1
      · rw [hc f n [] hn, hc (V ++ [(m, oe)]).length n [] hn, ih1.2, ih3.2]
    · have hnm : n = m := by simpa [keysOf] using hn
      subst hnm
      cases oe with
      | none =>
        have hkV : keysOf V = [] := hoe
        have hV : V = [] := by
          cases V with
          | nil => rfl
          | cons q V₂ => simp [keysOf] at hkV
        subst hV
        have hns : n = s := by
          simpa using hhd
        subst hns
        obtain ⟨f₁, rfl⟩ : ∃ f₁, f = f₁ + 1 := by
          cases f with
          | zero => simp at hf
          | succ f₁ => exact ⟨f₁, rfl⟩
        simp [buildPath, List.lookup, isPath]
      | some e =>
        obtain ⟨he1, he2, he3⟩ := hoe
        have hne : V ≠ [] := by
          intro h; subst h; simp [keysOf] at he3
        have hlk : (V ++ [(n, some e)]).lookup n = some (some e) := by
          rw [lookup_append_right hmV]
          simp [List.lookup]
        obtain ⟨f₁, rfl⟩ : ∃ f₁, f = f₁ + 1 := by
          cases f with
          | zero => rw [hlen] at hf; omega
          | succ f₁ => exact ⟨f₁, rfl⟩
        have hfV : V.length ≤ f₁ := by rw [hlen] at hf; omega
        have ih1 := ih hvV (hVhd hne) he3 hfV
        have ih2 := ih hvV (hVhd hne) he3 (show V.length ≤ V.length from le_refl _)
        have unfold1 : ∀ f₂ : Nat, V.length ≤ f₂ →
            buildPath (V ++ [(n, some e)]) (f₂ + 1) n [] =
            buildPath V V.length e.caller [] ++ [e] := by
          intro f₂ hf₂
          rw [buildPath, hlk]
          dsimp only
          rw [buildPath_acc, hc f₂ e.caller [] he3, (ih hvV (hVhd hne) he3 hf₂).2]
          simp
        constructor
        · rw [unfold1 f₁ hfV]
          have hsn := isPath_snoc ih2.1 he1
          rwa [he2] at hsn
        · rw [unfold1 f₁ hfV, hlen, unfold1 V.length (le_refl _)]

theorem lvl_start {g : CallGraph} {s : Nat} {V : List (Nat × Option Edge)}
    (hhd : V.head? = some (s, none)) : lvl V s = 0 := by
  obtain ⟨V₂, rfl⟩ : ∃ V₂, V = (s, none) :: V₂ := by
    cases V with
    | nil => simp at hhd
    | cons q V₂ =>
      have : q = (s, none) := by simpa using hhd
      exact ⟨V₂, by rw [this]⟩
  rw [lvl, List.length_cons, buildPath]
  simp [List.lookup]

theorem lvl_append {g : CallGraph} {s : Nat} {V A : List (Nat × Option Edge)}
    (hvV : visOk g [] V) (hhd : V.head? = some (s, none)) :
    ∀ n ∈ keysOf V, lvl (V ++ A) n = lvl V n := by
  intro n hn
  have hagree : ∀ k ∈ keysOf V, (V ++ A).lookup k = V.lookup k :=
    fun k hk => lookup_append_left hk
  rw [lvl, buildPath_congr hvV hagree _ n [] hn,
    (buildPath_spec hvV hhd hn (show V.length ≤ (V ++ A).length by simp)).2]
  rfl

theorem lookup_of_mem_nodup {A : List (Nat × Option Edge)} {k : Nat} {v : Option Edge}
    (hm : (k, v) ∈ A) (hnd : (keysOf A).Nodup) : A.lookup k = some v := by
  induction A with
  | nil => simp at hm
  | cons p rest ih =>
    obtain ⟨a, b⟩ := p
    rw [keysOf_cons] at hnd
    rcases List.mem_cons.mp hm with h | h
    · have hk : k = a := by
        have := congrArg Prod.fst h
        simpa using this
      have hv : v = b := by
        have := congrArg Prod.snd h
        simpa using this
      subst hk; subst hv
      simp [List.lookup]
    · have hka : k ≠ a := by
        intro he
        subst he
        have : k ∈ keysOf rest := by
          simp [keysOf]
          exact ⟨v, h⟩
        exact (List.nodup_cons.mp hnd).1 this
      have hb : (k == a) = false := by simpa using hka
      rw [List.lookup, hb]
      exact ih h (List.nodup_cons.mp hnd).2

theorem processEdges_spec :
    ∀ (es : List Edge) (V : List (Nat × Option Edge)) (Q : List Nat),
      ∃ A, (processEdges V Q es).1 = V ++ A ∧ (processEdges V Q es).2 = Q ++ keysOf A ∧
        (∀ pr ∈ A, ∃ e ∈ es, pr.1 = e.callee ∧ pr.2 = some e) ∧
        (∀ k ∈ keysOf A, k ∉ keysOf V) ∧
        (keysOf A).Nodup ∧
        (∀ e ∈ es, e.callee ∈ keysOf V ∨ e.callee ∈ keysOf A) := by
  intro es
  induction es with
  | nil =>
    intro V Q
    refine ⟨[], by simp [processEdges, keysOf], by simp [processEdges, keysOf], ?_, ?_, ?_, ?_⟩
    · intro pr hpr; simp at hpr
    · intro k hk; simp [keysOf] at hk
    · simp [keysOf]
    · intro e he; simp at he
  | cons e es ih =>
    intro V Q
    rw [processEdges]
    cases hl : V.lookup e.callee with
    | some oe =>
      dsimp only
      obtain ⟨A, h1, h2, h3, h4, h5, h6⟩ := ih V Q
      have hmem : e.callee ∈ keysOf V := by
        by_contra hc
        rw [lookup_none_iff.mpr hc] at hl
        cases hl
      refine ⟨A, h1, h2, ?_, h4, h5, ?_⟩
      · intro pr hpr
        obtain ⟨e', he', hh⟩ := h3 pr hpr
        exact ⟨e', List.mem_cons_of_mem _ he', hh⟩
      · intro e' he'
        rcases List.mem_cons.mp he' with rfl | he'
        · exact Or.inl hmem
        · exact h6 e' he'
    | none =>
      dsimp only
      obtain ⟨A', h1, h2, h3, h4, h5, h6⟩ := ih (V ++ [(e.callee, some e)]) (Q ++ [e.callee])
      have hnotV : e.callee ∉ keysOf V := lookup_none_iff.mp hl
      refine ⟨(e.callee, some e) :: A', ?_, ?_, ?_, ?_, ?_, ?_⟩
      · rw [h1]
        simp [List.append_assoc]
      · rw [h2, keysOf_cons]
        simp [List.append_assoc]
      · intro pr hpr
        rcases List.mem_cons.mp hpr with rfl | hpr
        · exact ⟨e, List.mem_cons_self _ _, rfl, rfl⟩
        · obtain ⟨e', he', hh⟩ := h3 pr hpr
          exact ⟨e', List.mem_cons_of_mem _ he', hh⟩
      · intro k hk
        rw [keysOf_cons] at hk
        rcases List.mem_cons.mp hk with rfl | hk
        · exact hnotV
        · intro hc
          exact h4 k hk (by rw [keysOf_append]; exact List.mem_append_left _ hc)
      · rw [keysOf_cons]
        refine List.nodup_cons.mpr ⟨?_, h5⟩
        intro hc
        apply h4 e.callee hc
        rw [keysOf_append]
        apply List.mem_append_right
        simp [keysOf]
      · intro e' he'
        rcases List.mem_cons.mp he' with rfl | he'
        · right; rw [keysOf_cons]; exact List.mem_cons_self _ _
        · rcases h6 e' he' with h | h
          · rw [keysOf_append] at h
            rcases List.mem_append.mp h with h | h
            · exact Or.inl h
            · right
              rw [keysOf_cons]
              simp [keysOf] at h
              simp [h]
          · right
            rw [keysOf_cons]
            exact List.mem_cons_of_mem _ h

theorem head?_append_ne_nil {V W : List (Nat × Option Edge)} (h : V ≠ []) :
    (V ++ W).head? = V.head? := by
  cases V with
  | nil => exact absurd rfl h
  | cons q V₂ => simp

theorem pairwise_const_le {l : List Nat} {f : Nat → Nat} {C : Nat}
    (h : ∀ x ∈ l, f x = C) : l.Pairwise (fun a b => f a ≤ f b) := by
  induction l with
  | nil => exact List.Pairwise.nil
  | cons a l ih =>
    refine List.Pairwise.cons ?_ (ih fun x hx => h x (List.mem_cons_of_mem _ hx))
    intro b hb
    rw [h a (List.mem_cons_self _ _), h b (List.mem_cons_of_mem _ hb)]

theorem visOk_entries {g : CallGraph} {c : Nat} :
    ∀ {A : List (Nat × Option Edge)} {seen0 : List Nat}, c ∈ seen0 →
      (∀ pr ∈ A, ∃ e, e ∈ outEdges g c ∧ e.caller = c ∧ pr.1 = e.callee ∧ pr.2 = some e) →
      (keysOf A).Nodup →
      (∀ k ∈ keysOf A, k ∉ seen0) →
      visOk g seen0 A := by
  intro A
  induction A with
  | nil => intro seen0 _ _ _ _; trivial
  | cons pr rest ih =>
    obtain ⟨k, oe⟩ := pr
    intro seen0 hc hA hnd hdisj
    obtain ⟨e, he1, he2, he3, he4⟩ := hA (k, oe) (List.mem_cons_self _ _)
    simp only at he3 he4
    subst he4
    rw [keysOf_cons] at hnd hdisj
    refine ⟨hdisj k (List.mem_cons_self _ _), ?_, ?_⟩
    · exact ⟨by rw [he2]; exact he1, he3.symm, by rw [he2]; exact hc⟩
    · refine ih (List.mem_append_left _ hc) ?_ (List.nodup_cons.mp hnd).2 ?_
      · intro pr hpr
        exact hA pr (List.mem_cons_of_mem _ hpr)
      · intro k' hk'
        intro hmem
        rcases List.mem_append.mp hmem with h | h
        · exact hdisj k' (List.mem_cons_of_mem _ hk') h
        · have : k' = k := by simpa using h
          subst this
          exact (List.nodup_cons.mp hnd).1 hk'

theorem lvl_append_entry {g : CallGraph} {s : Nat} {V A : List (Nat × Option Edge)}
    {k : Nat} {e : Edge}
    (hvV : visOk g [] V) (hhd : V.head? = some (s, none))
    (hlkA : A.lookup k = some (some e)) (hkV : k ∉ keysOf V) (hcV : e.caller ∈ keysOf V) :
    lvl (V ++ A) k = lvl V e.caller + 1 := by
  have hlk : (V ++ A).lookup k = some (some e) := by
    rw [lookup_append_right hkV]; exact hlkA
  have hAne : A ≠ [] := by
    intro h; subst h; simp [List.lookup] at hlkA
  have hA1 : 1 ≤ A.length := by
    cases A with
    | nil => exact absurd rfl hAne
    | cons p rest => simp
  have hL : (V ++ A).length = ((V ++ A).length - 1) + 1 := by
    simp only [List.length_append]; omega
  have hLge : V.length ≤ (V ++ A).length - 1 := by
    simp only [List.length_append]; omega
  rw [lvl, hL, buildPath, hlk]
  dsimp only
  rw [buildPath_acc,
    buildPath_congr hvV (fun kk hk => lookup_append_left hk) _ e.caller [] hcV,
    (buildPath_spec hvV hhd hcV hLge).2]
  simp [lvl]

/-- Loop invariant of `bfs`: relates the visited map `V` and queue `Q` of the
search from `s` for `target`. -/
structure BfsInv (g : CallGraph) (s target : Nat)
    (V : List (Nat × Option Edge)) (Q : List Nat) : Prop where
  vis : visOk g [] V
  hd : V.head? = some (s, none)
  qsub : ∀ n ∈ Q, n ∈ keysOf V
  qnd : Q.Nodup
  closure : ∀ n ∈ keysOf V, n ∉ Q → ∀ e ∈ outEdges g n,
    e.callee ∈ keysOf V ∧ lvl V e.callee ≤ lvl V n + 1
  qsorted : Q.Pairwise (fun a b => lvl V a ≤ lvl V b)
  vbound : ∀ n ∈ keysOf V, ∀ q ∈ Q, lvl V n ≤ lvl V q + 1
  tq : target ∈ keysOf V → target ∈ Q

theorem bfs_step {g : CallGraph} (hw : g.wf) {s target c : Nat}
    {V : List (Nat × Option Edge)} {rest : List Nat}
    (inv : BfsInv g s target V (c :: rest)) (hct : c ≠ target) :
    BfsInv g s target (processEdges V rest (outEdges g c)).1
      (processEdges V rest (outEdges g c)).2 := by
  obtain ⟨A, h1, h2, h3, h4, h5, h6⟩ := processEdges_spec (outEdges g c) V rest
  rw [h1, h2]
  have hcQ : c ∈ c :: rest := List.mem_cons_self _ _
  have hcK : c ∈ keysOf V := inv.qsub c hcQ
  have hVne : V ≠ [] := by
    intro h; subst h; simp [keysOf] at hcK
  have hA' : ∀ pr ∈ A, ∃ e, e ∈ outEdges g c ∧ e.caller = c ∧ pr.1 = e.callee ∧ pr.2 = some e := by
    intro pr hpr
    obtain ⟨e, he, hh1, hh2⟩ := h3 pr hpr
    exact ⟨e, he, hw c e he, hh1, hh2⟩
  have hvis' : visOk g [] (V ++ A) := by
    refine visOk_append.mpr ⟨inv.vis, ?_⟩
    refine visOk_entries ?_ hA' h5 ?_
    · simpa using hcK
    · intro k hk
      simpa using h4 k hk
  have hhd' : (V ++ A).head? = some (s, none) := by
    rw [head?_append_ne_nil hVne]; exact inv.hd
  have hK' : keysOf (V ++ A) = keysOf V ++ keysOf A := keysOf_append V A
  have hlold : ∀ n ∈ keysOf V, lvl (V ++ A) n = lvl V n := lvl_append inv.vis inv.hd
  have hlnew : ∀ k ∈ keysOf A, lvl (V ++ A) k = lvl V c + 1 := by
    intro k hk
    have hk' : k ∈ List.map Prod.fst A := hk
    obtain ⟨pr, hpr, hfst⟩ := List.mem_map.mp hk'
    obtain ⟨e, he1, he2, he3, he4⟩ := hA' pr hpr
    have hprE : pr = (k, some e) := by
      obtain ⟨a, b⟩ := pr
      simp only at he3 he4 hfst
      rw [← hfst, he3, he4]
    rw [hprE] at hpr
    have hlkA : A.lookup k = some (some e) := lookup_of_mem_nodup hpr h5
    have hres := lvl_append_entry inv.vis inv.hd hlkA (h4 k hk) (by rw [he2]; exact hcK)
    rw [hres, he2]
  refine ⟨hvis', hhd', ?_, ?_, ?_, ?_, ?_, ?_⟩
  · intro n hn
    rw [hK']
    rcases List.mem_append.mp hn with h | h
    · exact List.mem_append_left _ (inv.qsub n (List.mem_cons_of_mem _ h))
    · exact List.mem_append_right _ h
  · rw [List.nodup_append]
    refine ⟨(List.nodup_cons.mp inv.qnd).2, h5, ?_⟩
    intro a haR haA
    exact h4 a haA (inv.qsub a (List.mem_cons_of_mem _ haR))
  · intro n hn hnQ e he
    rw [hK'] at hn
    rcases List.mem_append.mp hn with hnV | hnA
    · by_cases hnc : n = c
      · subst hnc
        rcases h6 e he with hcal | hcal
        · constructor
          · rw [hK']; exact List.mem_append_left _ hcal
          · rw [hlold e.callee hcal, hlold n hcK]
            exact inv.vbound e.callee hcal n hcQ
        · constructor
          · rw [hK']; exact List.mem_append_right _ hcal
          · rw [hlnew e.callee hcal, hlold n hcK]
      · have hnQ0 : n ∉ c :: rest := by
          intro hmem
          rcases List.mem_cons.mp hmem with h | h
          · exact hnc h
          · exact hnQ (List.mem_append_left _ h)
        obtain ⟨hm, hl⟩ := inv.closure n hnV hnQ0 e he
        constructor
        · rw [hK']; exact List.mem_append_left _ hm
        · rw [hlold _ hm, hlold _ hnV]; exact hl
    · exact absurd (List.mem_append_right _ hnA) hnQ
  · rw [List.pairwise_append]
    refine ⟨?_, pairwise_const_le hlnew, ?_⟩
    · have hp : rest.Pairwise (fun a b => lvl V a ≤ lvl V b) :=
        (List.pairwise_cons.mp inv.qsorted).2
      refine List.Pairwise.imp_of_mem ?_ hp
      intro a b ha hb hab
      rw [hlold a (inv.qsub a (List.mem_cons_of_mem _ ha)),
        hlold b (inv.qsub b (List.mem_cons_of_mem _ hb))]
      exact hab
    · intro a ha b hb
      rw [hlold a (inv.qsub a (List.mem_cons_of_mem _ ha)), hlnew b hb]
      have : lvl V a ≤ lvl V c + 1 :=
        inv.vbound a (inv.qsub a (List.mem_cons_of_mem _ ha)) c hcQ
      omega
  · intro n hn q hq
    rw [hK'] at hn
    rcases List.mem_append.mp hq with hqR | hqA
    · have hqV := inv.qsub q (List.mem_cons_of_mem _ hqR)
      rcases List.mem_append.mp hn with hnV | hnA
      · rw [hlold n hnV, hlold q hqV]
        exact inv.vbound n hnV q (List.mem_cons_of_mem _ hqR)
      · rw [hlnew n hnA, hlold q hqV]
        have hle : lvl V c ≤ lvl V q := (List.pairwise_cons.mp inv.qsorted).1 q hqR
        omega
    · rcases List.mem_append.mp hn with hnV | hnA
      · rw [hlold n hnV, hlnew q hqA]
        have := inv.vbound n hnV c hcQ
        omega
      · rw [hlnew n hnA, hlnew q hqA]
        omega
  · intro ht
    rw [hK'] at ht
    rcases List.mem_append.mp ht with h | h
    · have hcc := inv.tq h
      rcases List.mem_cons.mp hcc with h' | h'
      · exact absurd h'.symm hct
      · exact List.mem_append_left _ h'
    · exact List.mem_append_right _ h

theorem start_mem_keys {s : Nat} {V : List (Nat × Option Edge)}
    (hhd : V.head? = some (s, none)) : s ∈ keysOf V := by
  cases V with
  | nil => simp at hhd
  | cons q V₂ =>
    have hq : q = (s, none) := by simpa using hhd
    subst hq
    simp [keysOf]

theorem bfs_init (g : CallGraph) (s target : Nat) :
    BfsInv g s target [(s, none)] [s] := by
  refine ⟨⟨by simp, rfl, trivial⟩, rfl, ?_, by simp, ?_, by simp, ?_, ?_⟩
  · intro n hn
    simpa [keysOf] using hn
  · intro n hn hnQ e _
    have : n = s := by simpa [keysOf] using hn
    subst this
    exact absurd (List.mem_singleton_self _) hnQ
  · intro n hn q hq
    have h1 : n = s := by simpa [keysOf] using hn
    have h2 : q = s := by simpa using hq
    subst h1; subst h2
    omega
  · intro h
    simpa [keysOf] using h

theorem bfs_intercept {g : CallGraph} {s target : Nat}
    {V : List (Nat × Option Edge)} {Q : List Nat}
    (inv : BfsInv g s target V Q) :
    ∀ {p : List Edge} {u : Nat}, isPath g s p u →
      ∃ w ∈ keysOf V, lvl V w ≤ p.length ∧ (w = u ∨ w ∈ Q) := by
  intro p
  induction p using List.reverseRecOn with
  | nil =>
    intro u hp
    refine ⟨s, start_mem_keys inv.hd, ?_, Or.inl hp⟩
    rw [lvl_start (g := g) inv.hd]
    simp
  | append_singleton p e ih =>
    intro u hp
    obtain ⟨c', hc'1, hc'2, hc'3⟩ := isPath_snoc_inv hp
    obtain ⟨w, hwK, hwl, hwu⟩ := ih hc'1
    rcases hwu with rfl | hwQ
    · by_cases hwQ2 : w ∈ Q
      · refine ⟨w, hwK, ?_, Or.inr hwQ2⟩
        simp only [List.length_append, List.length_singleton]
        omega
      · obtain ⟨hm, hl⟩ := inv.closure w hwK hwQ2 e hc'2
        refine ⟨e.callee, hm, ?_, Or.inl hc'3⟩
        simp only [List.length_append, List.length_singleton]
        omega
    · refine ⟨w, hwK, ?_, Or.inr hwQ⟩
      simp only [List.length_append, List.length_singleton]
      omega

theorem bfs_empty_unreachable {g : CallGraph} {s target : Nat}
    {V : List (Nat × Option Edge)}
    (inv : BfsInv g s target V []) : ¬ Reaches g s target := by
  rintro ⟨p, hp⟩
  have hcl : ∀ n ∈ keysOf V, ∀ e ∈ outEdges g n, e.callee ∈ keysOf V := by
    intro n hn e he
    exact (inv.closure n hn (by simp) e he).1
  have ht : target ∈ keysOf V := isPath_closed hcl (start_mem_keys inv.hd) hp
  simpa using inv.tq ht

theorem bfsLoop_none_unreach {g : CallGraph} (hw : g.wf) {s target : Nat} :
    ∀ (fuel : Nat) {V : List (Nat × Option Edge)} {Q : List Nat},
      BfsInv g s target V Q → bfsLoop g target fuel V Q = some none →
      ¬ Reaches g s target := by
  intro fuel
  induction fuel with
  | zero => intro V Q _ h; simp [bfsLoop] at h
  | succ fuel ih =>
    intro V Q inv h
    cases Q with
    | nil => exact bfs_empty_unreachable inv
    | cons c rest =>
      rw [bfsLoop] at h
      by_cases hct : c = target
      · rw [if_pos hct] at h
        simp at h
      · rw [if_neg hct] at h
        exact ih (bfs_step hw inv hct) h

theorem bfsLoop_found_spec {g : CallGraph} (hw : g.wf) {s target : Nat} :
    ∀ (fuel : Nat) {V : List (Nat × Option Edge)} {Q : List Nat} {p : List Edge},
      BfsInv g s target V Q → bfsLoop g target fuel V Q = some (some p) →
      isPath g s p target ∧ ∀ q, isPath g s q target → p.length ≤ q.length := by
  intro fuel
  induction fuel with
  | zero => intro V Q p _ h; simp [bfsLoop] at h
  | succ fuel ih =>
    intro V Q p inv h
    cases Q with
    | nil => rw [bfsLoop] at h; simp at h
    | cons c rest =>
      rw [bfsLoop] at h
      by_cases hct : c = target
      · rw [if_pos hct] at h
        simp only [Option.some.injEq] at h
        have hcK : c ∈ keysOf V := inv.qsub c (List.mem_cons_self _ _)
        have hspec := buildPath_spec inv.vis inv.hd hcK (le_refl V.length)
        have hplen : p.length = lvl V c := by
          rw [← h]; rfl
        constructor
        · rw [← h, ← hct]
          exact hspec.1
        · intro q hq
          obtain ⟨w, hwK, hwl, hwu⟩ := bfs_intercept inv hq
          have hwc : lvl V c ≤ lvl V w := by
            rcases hwu with rfl | hwQ
            · rw [hct]
            · rcases List.mem_cons.mp hwQ with rfl | hwR
              · exact le_refl _
              · exact (List.pairwise_cons.mp inv.qsorted).1 w hwR
          omega
      · rw [if_neg hct] at h
        exact ih (bfs_step hw inv hct) h

theorem graphNodes_callee {g : CallGraph} {n : Nat} {e : Edge}
    (he : e ∈ outEdges g n) : e.callee ∈ graphNodes g := by
  unfold outEdges at he
  cases hl : g.out.lookup n with
  | none => rw [hl] at he; simp at he
  | some es =>
    rw [hl] at he
    have hm := lookup_mem hl
    unfold graphNodes
    rw [List.mem_flatMap]
    refine ⟨(n, es), hm, ?_⟩
    refine List.mem_cons_of_mem _ ?_
    rw [List.mem_flatMap]
    exact ⟨e, he, by simp⟩

theorem bfsLoop_sufficient {g : CallGraph} {target : Nat} {U : List Nat}
    (hU : ∀ (n : Nat), ∀ e ∈ outEdges g n, e.callee ∈ U) :
    ∀ (fuel : Nat) (V : List (Nat × Option Edge)) (Q : List Nat),
      (keysOf V).Nodup → (∀ q ∈ Q, q ∈ keysOf V) → (∀ k ∈ keysOf V, k ∈ U) →
      U.length + 1 + Q.length ≤ fuel + (keysOf V).length →
      (bfsLoop g target fuel V Q).isSome := by
  intro fuel
  induction fuel with
  | zero =>
    intro V Q hnd hsub hUV harith
    have hlen : (keysOf V).length ≤ U.length :=
      (List.subperm_of_subset hnd fun a ha => hUV a ha).length_le
    omega
  | succ fuel ih =>
    intro V Q hnd hsub hUV harith
    cases Q with
    | nil => simp [bfsLoop]
    | cons c rest =>
      rw [bfsLoop]
      by_cases hct : c = target
      · rw [if_pos hct]; simp
      · rw [if_neg hct]
        obtain ⟨A, h1, h2, h3, h4, h5, h6⟩ := processEdges_spec (outEdges g c) V rest
        show (bfsLoop g target fuel (processEdges V rest (outEdges g c)).1
          (processEdges V rest (outEdges g c)).2).isSome = true
        rw [h1, h2]
        have hknd : (keysOf (V ++ A)).Nodup := by
          rw [keysOf_append, List.nodup_append]
          refine ⟨hnd, h5, ?_⟩
          intro a haV haA
          exact h4 a haA haV
        have hsub' : ∀ q ∈ rest ++ keysOf A, q ∈ keysOf (V ++ A) := by
          intro q hq
          rw [keysOf_append]
          rcases List.mem_append.mp hq with h | h
          · exact List.mem_append_left _ (hsub q (List.mem_cons_of_mem _ h))
          · exact List.mem_append_right _ h
        have hUV' : ∀ k ∈ keysOf (V ++ A), k ∈ U := by
          intro k hk
          rw [keysOf_append] at hk
          rcases List.mem_append.mp hk with h | h
          · exact hUV k h
          · obtain ⟨pr, hpr, hfst⟩ := List.mem_map.mp h
            obtain ⟨e, he, hh1, _⟩ := h3 pr hpr
            rw [← hfst, hh1]
            exact hU c e he
        have harith' : U.length + 1 + (rest ++ keysOf A).length ≤
            fuel + (keysOf (V ++ A)).length := by
          rw [keysOf_append]
          simp only [List.length_append]
          simp only [List.length_cons] at harith
          omega
        exact ih (V ++ A) (rest ++ keysOf A) hknd hsub' hUV' harith'

theorem bfs_run_isSome (g : CallGraph) (s target : Nat) :
    (bfsLoop g target (bfsFuel g s) [(s, none)] [s]).isSome := by
  refine bfsLoop_sufficient (U := s :: graphNodes g) ?_ _ _ _ ?_ ?_ ?_ ?_
  · intro n e he
    exact List.mem_cons_of_mem _ (graphNodes_callee he)
  · simp [keysOf]
  · intro q hq
    simpa [keysOf] using hq
  · intro k hk
    have : k = s := by simpa [keysOf] using hk
    subst this
    exact List.mem_cons_self _ _
  · simp [bfsFuel, keysOf]

theorem bfs_sound {g : CallGraph} (hw : g.wf) {s t : Nat} {p : List Edge}
    (h : bfs g s t = some p) :
    isPath g s p t ∧ ∀ q, isPath g s q t → p.length ≤ q.length := by
  unfold bfs at h
  cases hb : bfsLoop g t (bfsFuel g s) [(s, none)] [s] with
  | none => rw [hb] at h; cases h
  | some r =>
    rw [hb] at h
    cases r with
    | none => cases h
    | some p' =>
      have hp : p' = p := by injection h
      subst hp
      exact bfsLoop_found_spec hw _ (bfs_init g s t) hb

theorem bfs_none_iff {g : CallGraph} (hw : g.wf) (s t : Nat) :
    bfs g s t = none ↔ ¬ Reaches g s t := by
  constructor
  · intro h
    unfold bfs at h
    cases hb : bfsLoop g t (bfsFuel g s) [(s, none)] [s] with
    | none =>
      have := bfs_run_isSome g s t
      rw [hb] at this
      cases this
    | some r =>
      rw [hb] at h
      cases r with
      | none => exact bfsLoop_none_unreach hw _ (bfs_init g s t) hb
      | some p' => cases h
  · intro h
    cases hb : bfs g s t with
    | none => rfl
    | some p =>
      exact absurd ⟨p, (bfs_sound hw hb).1⟩ h

theorem bfs_self (g : CallGraph) (t : Nat) : bfs g t t = some [] := by
  unfold bfs bfsFuel
  rw [show (t :: graphNodes g).length + 1 = (graphNodes g).length + 1 + 1 from by simp]
  rw [bfsLoop]
  simp [buildPath, List.lookup]

theorem findPath_none_iff {g : CallGraph} (hw : g.wf) (roots : List Nat) (t : Nat) :
    findPath g roots t = none ↔ ∀ r ∈ roots, ¬ Reaches g r t := by
  induction roots with
  | nil => simp [findPath]
  | cons r rs ih =>
    rw [findPath]
    cases hb : bfs g r t with
    | some p =>
      simp only []
      constructor
      · intro h; cases h
      · intro h
        exact absurd ⟨p, (bfs_sound hw hb).1⟩ (h r (List.mem_cons_self _ _))
    | none =>
      simp only []
      rw [ih]
      constructor
      · intro h r' hr'
        rcases List.mem_cons.mp hr' with rfl | hr'
        · exact (bfs_none_iff hw r' t).mp hb
        · exact h r' hr'
      · intro h r' hr'
        exact h r' (List.mem_cons_of_mem _ hr')

theorem findPath_first {g : CallGraph} {roots : List Nat} {t : Nat} {p : List Edge}
    (h : findPath g roots t = some p) :
    ∃ pre r post, roots = pre ++ r :: post ∧
      (∀ r' ∈ pre, bfs g r' t = none) ∧ bfs g r t = some p := by
  induction roots with
  | nil => simp [findPath] at h
  | cons r rs ih =>
    rw [findPath] at h
    cases hb : bfs g r t with
    | some q =>
      rw [hb] at h
      have hq : q = p := by injection h
      subst hq
      exact ⟨[], r, rs, rfl, by simp, hb⟩
    | none =>
      rw [hb] at h
      obtain ⟨pre, r', post, h1, h2, h3⟩ := ih h
      refine ⟨r :: pre, r', post, by rw [h1]; rfl, ?_, h3⟩
      intro r'' hr''
      rcases List.mem_cons.mp hr'' with rfl | hr''
      · exact hb
      · exact h2 r'' hr''

/-- Embedding of `*ssa.Function`: the attributes that main.go and graph.go
inspect. `origin` is the index of the generic origin function
(`fn.Origin()`), `none` when the function is not an instantiation;
`synthetic` is empty for source functions; `hasObject` models
`fn.Object() != nil`; `fnString` models `fn.String()`; `filename` models
`fn.Prog.Fset.Position(fn.Pos()).Filename`. -/
structure Fn where
  name : List Char
  pkgPath : List Char
  pkgName : List Char
  filename : List Char
  synthetic : List Char
  fnString : List Char
  hasObject : Bool
  origin : Option Nat
  hasParent : Bool
deriving DecidableEq, Repr

instance : Inhabited Fn := ⟨⟨[], [], [], [], [], [], false, none, false⟩⟩

/-- Embedding of `isAWSSDKv2Call` (main.go): AWS SDK v2 package prefix plus
the `/api_op_<Name>.go` file-name convention. -/
def isAWSSDKv2Call (fn : Fn) : Bool :=
  goStartsWith fn.pkgPath (str "github.com/aws/aws-sdk-go-v2/service/") &&
    goEndsWith fn.filename (str "/api_op_" ++ fn.name ++ str ".go")

/-- Embedding of `isAWSSDKv1Call` (main.go): AWS SDK v1 package prefix, the
`/api.go` file-name convention, and a `Request`-suffixed function name (with
the source's additional `new`/`Set` suffix exclusions). -/
def isAWSSDKv1Call (fn : Fn) : Bool :=
  goStartsWith fn.pkgPath (str "github.com/aws/aws-sdk-go/service/") &&
    goEndsWith fn.filename (str "/api.go") &&
    (goEndsWith fn.name (str "Request") &&
      !goEndsWith fn.name (str "new") &&
      !goEndsWith fn.name (str "Set"))

/-- Embedding of `sdkVersion` (main.go): `"v2"`, `"v1"`, or `""`. -/
def sdkVersion (fn : Fn) : List Char :=
  if isAWSSDKv2Call fn then str "v2"
  else if isAWSSDKv1Call fn then str "v1"
  else []

/-- Embedding of the SDK-method normalization in `main` (main.go:123-132):
strip the v1 `Request` suffix and prepend the package (= service) name. -/
def canonicalMethod (fn : Fn) : List Char :=
  let fnName :=
    if sdkVersion fn == str "v1" then goTrimSuffix fn.name (str "Request")
    else fn.name
  fn.pkgName ++ '.' :: fnName

/-- The program model handed to the orchestration: the function table
(indexed by `Nat`, standing for `*ssa.Function` identity), the reachable
set in one iteration order (`graph.reachable` is a Go map), the call graph
over function indices, and the analysis roots. -/
structure Program where
  funcs : List Fn
  reachable : List Nat
  graph : CallGraph
  roots : List Nat
deriving DecidableEq, Repr

/-- Function-table access; Go pointers can never be dangling, so a default
is only needed to make the embedding total. -/
def Program.fn (P : Program) (i : Nat) : Fn := P.funcs.getD i default

/-- Continuation of the loop body of `main` after the origin collapse:
nested-function filter, SDK classification, the reflection path check, and
the emitted canonical method name (main.go:105-133). -/
def sdkMethodStep (P : Program) (reflection : Bool) (j : Nat) : Option (List Char) :=
  if (P.fn j).hasParent then none
  else if sdkVersion (P.fn j) = [] then none
  else if !reflection && (findPath P.graph P.roots j).isNone then none
  else some (canonicalMethod (P.fn j))

/-- Embedding of the SDK-method collection loop of `main`
(main.go:94-134): filter synthetic wrappers, collapse instantiations to
their generic origin, then `sdkMethodStep`. -/
def sdkMethodsOf (P : Program) (reflection : Bool) : List (List Char) :=
  P.reachable.filterMap fun i =>
    if (P.fn i).synthetic ≠ [] then none
    else
      sdkMethodStep P reflection
        (match (P.fn i).origin with
         | some o => o
         | none => i)

/-- Embedding of `findFunc` (graph.go:147-156): first reachable source-named
function whose `String()` equals the requested name. -/
def findFunc (P : Program) (fnName : List Char) : Option Nat :=
  P.reachable.find? fun i =>
    (P.fn i).synthetic == [] && (P.fn i).hasObject && (P.fn i).fnString == fnName

/-- Embedding of `whyReachable` (graph.go:93-107): locate the function by
name, then search for a path from the roots. (`DeleteSyntheticNodes` is a
`callgraph` library call that rewires the externally built graph; the
embedding receives the already-cleaned graph.) -/
def whyReachable (P : Program) (fnName : List Char) : Option (List Edge) :=
  match findFunc P fnName with
  | none => none
  | some i => findPath P.graph P.roots i

/-- Embedding of `printPath` (graph.go:124-143) at the level of print
events: the root line for the first edge, then one step block per edge.
The text of each line is produced from `createStep`/`cleanName`, which
render `Fset` position data of the external program model; the two
renderers are therefore parameters. -/
def printPath (rootLine stepLine : Edge → List Char) (path : List Edge) :
    List (List Char) :=
  path.enum.flatMap fun ie =>
    (if ie.1 == 0 then [rootLine ie.2] else []) ++ [stepLine ie.2]

/-- Embedding of `possibleFunctionNames` (main.go:166-182). -/
def possibleFunctionNames (sdkMethod : List Char) : List (List Char) :=
  let parts := splitOnChar '.' sdkMethod
  let service := goToLower (parts.headD [])
  let method := parts.getD 1 []
  let v1 := str "(*github.com/aws/aws-sdk-go/service/" ++ service ++ str "." ++
    parts.headD [] ++ str ")." ++ method ++ str "Request"
  let v2 := str "(*github.com/aws/aws-sdk-go-v2/service/" ++ service ++
    str ".Client)." ++ method
  [v1, v2]

/-- A permission record of the dataset (`iamMapMethod`). -/
structure IamMapMethod where
  action : List Char
deriving DecidableEq, Repr

/-- The dataset (`iamMapBase`): operation name to permission records, as an
association list in one map-iteration order. -/
structure IamMapBase where
  sdkMethodIAMMappings : List (List Char × List IamMapMethod)
deriving DecidableEq, Repr

/-- Embedding of `sdkMethodToAction` (iammap.go): first matching name wins
(case-insensitively); its first record's action is returned; an entry with
no records falls through; no match yields the empty string. -/
def lookupAction : List (List Char × List IamMapMethod) → List Char → List Char
  | [], _ => []
  | (iamMethodName, iamMethods) :: rest, apiMethod =>
    if equalFold iamMethodName apiMethod then
      match iamMethods with
      | [] => lookupAction rest apiMethod
      | priv :: _ => priv.action
    else lookupAction rest apiMethod

/-- Wrapper matching the source signature of `sdkMethodToAction`. -/
def sdkMethodToAction (m : IamMapBase) (apiMethod : List Char) : List Char :=
  lookupAction m.sdkMethodIAMMappings apiMethod

/-- Embedding of `actionToSDKMethods` (iammap.go): every operation name is
emitted once per record whose action matches case-insensitively. -/
def collectMethods : List (List Char × List IamMapMethod) → List Char → List (List Char)
  | [], _ => []
  | (iamMethodName, iamMethods) :: rest, action =>
    (iamMethods.filter fun priv => equalFold priv.action action).map
      (fun _ => iamMethodName) ++ collectMethods rest action

/-- Wrapper matching the source signature of `actionToSDKMethods`. -/
def actionToSDKMethods (m : IamMapBase) (action : List Char) : List (List Char) :=
  collectMethods m.sdkMethodIAMMappings action

/-- First non-`none` result of `f` over a list, mirroring the early-return
loops of `main`. -/
def firstSome {α β : Type} (f : α → Option β) : List α → Option β
  | [] => none
  | a :: l =>
    match f a with
    | some b => some b
    | none => firstSome f l

/-- Embedding of the `-why` search of `main` (main.go:76-91): for each SDK
method requiring the action, try each SDK-version function name and return
the first path found. -/
def explainResult (P : Program) (m : IamMapBase) (why : List Char) :
    Option (List Edge) :=
  firstSome
    (fun method => firstSome (fun fnName => whyReachable P fnName)
      (possibleFunctionNames method))
    (actionToSDKMethods m why)

/-- Embedding of the `-why` format check `^[A-Za-z]+\:[A-Za-z]+$`
(main.go:57-63). -/
def whyFormatOk (s : List Char) : Bool :=
  let pre := s.takeWhile Char.isAlpha
  match s.drop pre.length with
  | [] => false
  | c :: rest =>
    c == ':' && !pre.isEmpty && !rest.isEmpty && rest.all Char.isAlpha

/-- Outcome of `analyze` (graph.go:49-88): the external
`packages.Load`/`ssautil`/`rta` pipeline either fails in one of the ways
`analyze` turns into `log.Fatalf`, or produces a program model. -/
inductive BuildError
  | loadFailed
  | noPackages
  | pkgErrors
  | noMainPackages
deriving DecidableEq, Repr

/-- The `log.Fatalf`/`os.Exit` sites of `main` (main.go) and `analyze`
(graph.go), i.e. every way the process terminates with non-zero status. -/
inductive RunError
  | usageNoArgs
  | whyMalformed
  | buildFailed (e : BuildError)
  | whyUnknownAction
  | whyNoPath
  | noSDKCalls
  | noIAMActions
deriving DecidableEq, Repr

/-- Input of one invocation: parsed flags and positional arguments, the
outcome of the external build pipeline, the bundled dataset (already
deserialized; it is an embedded asset), and the two path renderers used by
`printPath`. -/
structure CmdInput where
  args : List (List Char)
  reflectionFlag : Bool
  sdkcallsFlag : Bool
  whyFlag : List Char
  buildResult : Except BuildError Program
  iamMap : IamMapBase
  rootLine : Edge → List Char
  stepLine : Edge → List Char

/-- The in-memory dataset state after main.go:70-72: `loadMap()` fills the
global map only when `-sdk-calls` is not set; otherwise the global keeps its
zero value, an empty map. -/
def loadedMap (inp : CmdInput) : IamMapBase :=
  if !inp.sdkcallsFlag then inp.iamMap else ⟨[]⟩

/-- Embedding of `main` (main.go:37-161): the printed lines on success, or
the fatal-exit reason. All map queries go through the in-memory map state
`loadedMap inp`. -/
def run (inp : CmdInput) : Except RunError (List (List Char)) :=
  if inp.args.isEmpty then .error .usageNoArgs
  else if !inp.whyFlag.isEmpty && !whyFormatOk inp.whyFlag then .error .whyMalformed
  else
    match inp.buildResult with
    | .error e => .error (.buildFailed e)
    | .ok P =>
      if !inp.whyFlag.isEmpty then
        if (actionToSDKMethods (loadedMap inp) inp.whyFlag).isEmpty then
          .error .whyUnknownAction
        else
          match explainResult P (loadedMap inp) inp.whyFlag with
          | some path => .ok (printPath inp.rootLine inp.stepLine path)
          | none => .error .whyNoPath
      else
        let ms := sdkMethodsOf P inp.reflectionFlag
        if ms.isEmpty then .error .noSDKCalls
        else if inp.sdkcallsFlag then .ok ms
        else
          let actions := (ms.map (sdkMethodToAction (loadedMap inp))).filter
            fun a => !a.isEmpty
          if actions.isEmpty then .error .noIAMActions
          else .ok actions

/-- Hand-built graph refuting global path minimality: roots 0 and 2, target
3, with `0 -> 1 -> 3` (found first) but a direct edge `2 -> 3`. -/
def c1Graph : CallGraph := ⟨[(0, [⟨0, 1⟩]), (1, [⟨1, 3⟩]), (2, [⟨2, 3⟩])]⟩

/-- The spec's hand-built graph: `root -> a -> b -> target` plus the direct
edge `root -> target` (nodes 0, 1, 2, 3). -/
def c1SpecGraph : CallGraph := ⟨[(0, [⟨0, 1⟩, ⟨0, 3⟩]), (1, [⟨1, 2⟩]), (2, [⟨2, 3⟩])]⟩

/-- Graph for the empty-path corner: single edge `2 -> 1`. -/
def c5Graph : CallGraph := ⟨[(2, [⟨2, 1⟩])]⟩

/-- Graph where an earlier root reaches a root target: edge `0 -> 1`. -/
def c10Graph : CallGraph := ⟨[(0, [⟨0, 1⟩])]⟩

/-- C1 (amended): the path returned by `findPath` is an ordered sequence of
call edges from the first root that reaches the target, and its length is
minimal among all paths from that root to the target (minimality over the
winning root only, not over all roots). -/
theorem findPath_shortest {g : CallGraph} (hw : g.wf) {roots : List Nat} {t : Nat}
    {p : List Edge} (h : findPath g roots t = some p) :
    ∃ pre r post, roots = pre ++ r :: post ∧ isPath g r p t ∧
      ∀ q, isPath g r q t → p.length ≤ q.length := by
  obtain ⟨pre, r, post, h1, _, h3⟩ := findPath_first h
  obtain ⟨hp, hmin⟩ := bfs_sound hw h3
  exact ⟨pre, r, post, h1, hp, hmin⟩

/-- C1 (counterexample): with roots `[0, 2]` and target 3 in `c1Graph`,
`findPath` returns the two-edge path found from root 0 even though root 2
has a direct edge to the target, so the returned length is not minimal among
all root-to-target paths. -/
theorem findPath_shortest_counterexample :
    ¬ (∀ p, findPath c1Graph [0, 2] 3 = some p →
        ∀ r ∈ [0, 2], ∀ q, isPath c1Graph r q 3 → p.length ≤ q.length) := by
  intro h
  have hc := h [⟨0, 1⟩, ⟨1, 3⟩] (by decide) 2 (by decide) [⟨2, 3⟩] (by decide)
  exact absurd hc (by decide)

/-- C1 (witness): on the spec's hand-built graph the theorem applies and the
returned path is the single direct edge. -/
theorem findPath_shortest_witness :
    ∃ pre r post, ([0] : List Nat) = pre ++ r :: post ∧
      isPath c1SpecGraph r [⟨0, 3⟩] 3 ∧
      ∀ q, isPath c1SpecGraph r q 3 → ([(⟨0, 3⟩ : Edge)]).length ≤ q.length :=
  findPath_shortest (wf_of_wfB (by decide)) (by decide)

/-- C5 (amended): `findPath` returns `none` exactly when no root reaches
the target, and otherwise the path of the first root whose BFS result is
non-nil (possibly the empty path) is returned. -/
theorem findPath_none_first {g : CallGraph} (hw : g.wf) (roots : List Nat) (t : Nat) :
    (findPath g roots t = none ↔ ∀ r ∈ roots, ¬ Reaches g r t) ∧
    (∀ p, findPath g roots t = some p →
      ∃ pre r post, roots = pre ++ r :: post ∧ (∀ r' ∈ pre, bfs g r' t = none) ∧
        bfs g r t = some p) :=
  ⟨findPath_none_iff hw roots t, fun _ h => findPath_first h⟩

/-- C5 (counterexample): with roots `[1, 2]` and target 1 in `c5Graph`, the
first root yielding a non-empty path is 2 (path `[2 -> 1]`), yet `findPath`
returns root 1's empty path, refuting "the first root that yields a
non-empty path wins". -/
theorem findPath_none_first_counterexample :
    findPath c5Graph [1, 2] 1 = some [] ∧ bfs c5Graph 2 1 = some [⟨2, 1⟩] ∧
      some ([] : List Edge) ≠ some [(⟨2, 1⟩ : Edge)] := by decide

/-- C5 (witness): the amended statement applied to `c1Graph` with roots
`[0, 2]` and target 3. -/
theorem findPath_none_first_witness :
    (findPath c1Graph [0, 2] 3 = none ↔ ∀ r ∈ [0, 2], ¬ Reaches c1Graph r 3) ∧
    (∀ p, findPath c1Graph [0, 2] 3 = some p →
      ∃ pre r post, ([0, 2] : List Nat) = pre ++ r :: post ∧
        (∀ r' ∈ pre, bfs c1Graph r' 3 = none) ∧ bfs c1Graph r 3 = some p) :=
  findPath_none_first (wf_of_wfB (by decide)) [0, 2] 3

/-- C10 (amended): when the target is a root, `bfs` from it returns the
non-nil empty path, `findPath` always reports success, and the result is the
zero-length path provided no earlier root yields a path first; likewise
`whyReachable` succeeds, and `printPath` of an empty path prints nothing. -/
theorem rootTarget_spec :
    (∀ (g : CallGraph) (t : Nat), bfs g t t = some []) ∧
    (∀ (g : CallGraph) (roots : List Nat) (t : Nat), t ∈ roots →
      ∃ p, findPath g roots t = some p) ∧
    (∀ (g : CallGraph) (pre post : List Nat) (t : Nat),
      (∀ r ∈ pre, bfs g r t = none) → findPath g (pre ++ t :: post) t = some []) ∧
    (∀ (P : Program) (name : List Char) (i : Nat),
      findFunc P name = some i → i ∈ P.roots → ∃ p, whyReachable P name = some p) ∧
    (∀ (rl sl : Edge → List Char), printPath rl sl [] = []) := by
  have hself : ∀ (g : CallGraph) (t : Nat), bfs g t t = some [] := bfs_self
  have hsucc : ∀ (g : CallGraph) (roots : List Nat) (t : Nat), t ∈ roots →
      ∃ p, findPath g roots t = some p := by
    intro g roots t ht
    induction roots with
    | nil => simp at ht
    | cons r rs ih =>
      rw [findPath]
      cases hb : bfs g r t with
      | some q => exact ⟨q, rfl⟩
      | none =>
        rcases List.mem_cons.mp ht with heq | ht'
        · rw [heq, hself g r] at hb
          cases hb
        · exact ih ht'
  refine ⟨hself, hsucc, ?_, ?_, ?_⟩
  · intro g pre post t hpre
    induction pre with
    | nil =>
      rw [List.nil_append, findPath, hself g t]
    | cons r pre ih =>
      rw [List.cons_append, findPath, hpre r (List.mem_cons_self _ _)]
      exact ih fun r' hr' => hpre r' (List.mem_cons_of_mem _ hr')
  · intro P name i hf hi
    rw [whyReachable, hf]
    exact hsucc P.graph P.roots i hi
  · intro rl sl
    rfl

/-- C10 (counterexample): target 1 is a root in `c10Graph` with roots
`[0, 1]`, but root 0 reaches it through an edge first, so `findPath`
returns a one-edge path rather than the zero-length path from the root that
contains the target. -/
theorem rootTarget_counterexample :
    (1 : Nat) ∈ [0, 1] ∧ findPath c10Graph [0, 1] 1 = some [⟨0, 1⟩] ∧
      some [(⟨0, 1⟩ : Edge)] ≠ some ([] : List Edge) := by decide

/-- C10 (witness): the amended statement at concrete inputs — a root target
gives the empty path, also through `findPath` when earlier roots fail. -/
theorem rootTarget_witness :
    bfs c10Graph 7 7 = some [] ∧ findPath c10Graph [3, 5] 5 = some [] :=
  ⟨rootTarget_spec.1 c10Graph 7,
    rootTarget_spec.2.2.1 c10Graph [3] [] 5 (by decide)⟩

theorem goEndsWith_iff {s pat : List Char} : goEndsWith s pat = true ↔ pat <:+ s := by
  rw [goEndsWith, List.isSuffixOf_iff_suffix]

theorem request_excludes {nm pat : List Char}
    (hreq : goEndsWith nm (str "Request") = true)
    (hlen : pat.length ≤ 7) (hpat : pat.isSuffixOf (str "Request") = false) :
    goEndsWith nm pat = false := by
  by_contra hc
  rw [Bool.not_eq_false, goEndsWith_iff] at hc
  rw [goEndsWith_iff] at hreq
  have hsub : pat <:+ str "Request" :=
    List.suffix_of_suffix_length_le hc hreq
      (by rw [show (str "Request").length = 7 from rfl]; exact hlen)
  rw [← List.isSuffixOf_iff_suffix, hpat] at hsub
  cases hsub

theorem isAWSSDKv1Call_simp (fn : Fn) :
    isAWSSDKv1Call fn =
      (goStartsWith fn.pkgPath (str "github.com/aws/aws-sdk-go/service/") &&
        goEndsWith fn.filename (str "/api.go") &&
        goEndsWith fn.name (str "Request")) := by
  unfold isAWSSDKv1Call
  cases h : goEndsWith fn.name (str "Request") with
  | false => simp [h]
  | true =>
    have h1 : goEndsWith fn.name (str "new") = false :=
      request_excludes h (by decide) (by decide)
    have h2 : goEndsWith fn.name (str "Set") = false :=
      request_excludes h (by decide) (by decide)
    simp [h, h1, h2]

theorem goTrimSuffix_append (base pat : List Char) :
    goTrimSuffix (base ++ pat) pat = base := by
  rw [goTrimSuffix]
  have h : goEndsWith (base ++ pat) pat = true := by
    rw [goEndsWith_iff]; exact ⟨base, rfl⟩
  rw [if_pos h]
  have hl : (base ++ pat).length - pat.length = base.length := by simp
  rw [hl, List.take_left]

/-- C2: a function is classified as a privileged AWS SDK call if and only if
its package path carries the generation prefix and its declaration file (for
v1: also its name) follows that generation's convention — the v1 `new`/`Set`
exclusions in the source are vacuous given the `Request` suffix; v1 names
split as `<Op>Request` and normalize to `pkg.<Op>`, v2 to `pkg.<Name>`, so
both generations reach the same canonical `service.Method` form. -/
theorem classifierSpec :
    (∀ fn : Fn, sdkVersion fn ≠ [] ↔
      ((goStartsWith fn.pkgPath (str "github.com/aws/aws-sdk-go-v2/service/") &&
        goEndsWith fn.filename (str "/api_op_" ++ fn.name ++ str ".go")) = true ∨
       (goStartsWith fn.pkgPath (str "github.com/aws/aws-sdk-go/service/") &&
        goEndsWith fn.filename (str "/api.go") &&
        goEndsWith fn.name (str "Request")) = true)) ∧
    (∀ fn : Fn, sdkVersion fn = str "v1" →
      ∃ base, fn.name = base ++ str "Request" ∧
        canonicalMethod fn = fn.pkgName ++ '.' :: base) ∧
    (∀ fn : Fn, sdkVersion fn = str "v2" →
      canonicalMethod fn = fn.pkgName ++ '.' :: fn.name) ∧
    (∀ fn1 fn2 : Fn, sdkVersion fn1 = str "v1" → sdkVersion fn2 = str "v2" →
      fn1.pkgName = fn2.pkgName → fn1.name = fn2.name ++ str "Request" →
      canonicalMethod fn1 = canonicalMethod fn2) := by
  have hv1spec : ∀ fn : Fn, sdkVersion fn = str "v1" →
      ∃ base, fn.name = base ++ str "Request" ∧
        canonicalMethod fn = fn.pkgName ++ '.' :: base := by
    intro fn hv
    have hv2 : isAWSSDKv2Call fn = false := by
      by_contra hc
      rw [Bool.not_eq_false] at hc
      rw [sdkVersion, if_pos hc] at hv
      exact absurd hv (by decide)
    have hv1 : isAWSSDKv1Call fn = true := by
      by_contra hc
      rw [Bool.not_eq_true] at hc
      rw [sdkVersion, if_neg (by rw [hv2]; exact Bool.false_ne_true), if_neg
        (by rw [hc]; exact Bool.false_ne_true)] at hv
      exact absurd hv.symm (by decide)
    have hreq : goEndsWith fn.name (str "Request") = true := by
      rw [isAWSSDKv1Call_simp] at hv1
      simp only [Bool.and_eq_true] at hv1
      exact hv1.2
    obtain ⟨base, hbase⟩ : ∃ base, base ++ str "Request" = fn.name :=
      goEndsWith_iff.mp hreq
    refine ⟨base, hbase.symm, ?_⟩
    rw [canonicalMethod]
    have hb : (sdkVersion fn == str "v1") = true := by
      rw [hv]; exact beq_self_eq_true _
    simp only [hb, if_true]
    rw [← hbase, goTrimSuffix_append]
  have hv2spec : ∀ fn : Fn, sdkVersion fn = str "v2" →
      canonicalMethod fn = fn.pkgName ++ '.' :: fn.name := by
    intro fn hv
    rw [canonicalMethod]
    have hb : (sdkVersion fn == str "v1") = false := by
      rw [hv]; decide
    simp [hb]
  refine ⟨?_, hv1spec, hv2spec, ?_⟩
  · intro fn
    rw [show (goStartsWith fn.pkgPath (str "github.com/aws/aws-sdk-go-v2/service/") &&
        goEndsWith fn.filename (str "/api_op_" ++ fn.name ++ str ".go")) =
        isAWSSDKv2Call fn from rfl, ← isAWSSDKv1Call_simp]
    rw [sdkVersion]
    cases h2 : isAWSSDKv2Call fn with
    | true => simp [str]
    | false =>
      cases h1 : isAWSSDKv1Call fn with
      | true => simp [str]
      | false => simp
  · intro fn1 fn2 hv1 hv2 hpkg hname
    obtain ⟨base, hb1, hb2⟩ := hv1spec fn1 hv1
    rw [hv2spec fn2 hv2, hb2, hpkg]
    have : base = fn2.name := by
      have h := hb1.symm.trans hname
      have := congrArg (fun l => goTrimSuffix l (str "Request")) h
      simpa [goTrimSuffix_append] using this
    rw [this]

/-- A v1-classified SDK function used by the classifier witness. -/
def exFnV1 : Fn :=
  ⟨str "GetParameterRequest", str "github.com/aws/aws-sdk-go/service/ssm",
    str "ssm", str "/go/pkg/github.com/aws/aws-sdk-go/service/ssm/api.go",
    [], str "(*github.com/aws/aws-sdk-go/service/ssm.SSM).GetParameterRequest",
    true, none, false⟩

/-- A v2-classified SDK function used by the classifier witness. -/
def exFnV2 : Fn :=
  ⟨str "GetParameter", str "github.com/aws/aws-sdk-go-v2/service/ssm",
    str "ssm",
    str "/go/pkg/github.com/aws/aws-sdk-go-v2/service/ssm/api_op_GetParameter.go",
    [], str "(*github.com/aws/aws-sdk-go-v2/service/ssm.Client).GetParameter",
    true, none, false⟩

/-- C2 (witness): a concrete v2 function is classified, and a concrete v1
function normalizes to the same canonical method as its v2 counterpart. -/
theorem classifierSpec_witness :
    sdkVersion exFnV2 ≠ [] ∧ canonicalMethod exFnV1 = canonicalMethod exFnV2 :=
  ⟨(classifierSpec.1 exFnV2).mpr (Or.inl (by decide)),
    classifierSpec.2.2.2 exFnV1 exFnV2 (by decide) (by decide) (by decide) (by decide)⟩

theorem equalFold_refl (s : List Char) : equalFold s s = true := by
  simp [equalFold]

theorem equalFold_congr {a b : List Char} (h : equalFold a b = true) (x : List Char) :
    equalFold x a = equalFold x b := by
  unfold equalFold at h ⊢
  rw [show goToLower a = goToLower b from by simpa using h]

theorem lookupAction_cons (nm : List Char) (privs : List IamMapMethod)
    (rest : List (List Char × List IamMapMethod)) (apiMethod : List Char) :
    lookupAction ((nm, privs) :: rest) apiMethod =
      if equalFold nm apiMethod then
        match privs with
        | [] => lookupAction rest apiMethod
        | priv :: _ => priv.action
      else lookupAction rest apiMethod := rfl

theorem lookupAction_no_match :
    ∀ {d : List (List Char × List IamMapMethod)} {apiMethod : List Char},
      (∀ pr ∈ d, equalFold pr.1 apiMethod = false) → lookupAction d apiMethod = [] := by
  intro d
  induction d with
  | nil => intro apiMethod _; rfl
  | cons pr rest ih =>
    obtain ⟨nm, privs⟩ := pr
    intro apiMethod h
    rw [lookupAction_cons, if_neg]
    · exact ih fun q hq => h q (List.mem_cons_of_mem _ hq)
    · rw [h (nm, privs) (List.mem_cons_self _ _)]
      exact Bool.false_ne_true

theorem lookupAction_first :
    ∀ (d₁ d₂ : List (List Char × List IamMapMethod)) (name apiMethod : List Char)
      (p : IamMapMethod) (ps : List IamMapMethod),
      (∀ pr ∈ d₁, equalFold pr.1 apiMethod = false ∨ pr.2 = []) →
      equalFold name apiMethod = true →
      lookupAction (d₁ ++ (name, p :: ps) :: d₂) apiMethod = p.action := by
  intro d₁
  induction d₁ with
  | nil =>
    intro d₂ name apiMethod p ps _ hmatch
    rw [List.nil_append, lookupAction_cons, if_pos hmatch]
  | cons pr rest ih =>
    obtain ⟨nm, privs⟩ := pr
    intro d₂ name apiMethod p ps hskip hmatch
    rw [List.cons_append, lookupAction_cons]
    have htail := ih d₂ name apiMethod p ps
      (fun q hq => hskip q (List.mem_cons_of_mem _ hq)) hmatch
    rcases hskip (nm, privs) (List.mem_cons_self _ _) with hf | hnil
    · rw [if_neg (by rw [hf]; exact Bool.false_ne_true)]
      exact htail
    · have hnil' : privs = [] := hnil
      subst hnil'
      by_cases he : equalFold nm apiMethod = true
      · rw [if_pos he]
        exact htail
      · rw [if_neg he]
        exact htail

/-- Dataset refuting "the forward lookup returns all identifiers": one
operation with two permission records. -/
def c3Map : IamMapBase := ⟨[(str "X", [⟨str "a"⟩, ⟨str "b"⟩])]⟩

/-- C3 (counterexample): for the entry `X -> [a, b]`, `sdkMethodToAction`
does not return every identifier of the list — it returns only `a`. -/
theorem mappingForward_counterexample :
    ¬ (∀ p ∈ [(⟨str "a"⟩ : IamMapMethod), ⟨str "b"⟩],
        sdkMethodToAction c3Map (str "X") = p.action) := by
  decide

/-- C3 (amended): for an operation name absent from the dataset (no
case-insensitive match), the forward lookup returns the empty string rather
than an error; for the first case-insensitively matching entry that has a
non-empty permission list, it returns that entry's first identifier only. -/
theorem mappingForward_spec :
    (∀ (m : IamMapBase) (apiMethod : List Char),
      (∀ pr ∈ m.sdkMethodIAMMappings, equalFold pr.1 apiMethod = false) →
      sdkMethodToAction m apiMethod = []) ∧
    (∀ (d₁ d₂ : List (List Char × List IamMapMethod)) (name apiMethod : List Char)
        (p : IamMapMethod) (ps : List IamMapMethod),
      (∀ pr ∈ d₁, equalFold pr.1 apiMethod = false ∨ pr.2 = []) →
      equalFold name apiMethod = true →
      sdkMethodToAction ⟨d₁ ++ (name, p :: ps) :: d₂⟩ apiMethod = p.action) := by
  constructor
  · intro m apiMethod h
    rw [sdkMethodToAction]
    exact lookupAction_no_match h
  · intro d₁ d₂ name apiMethod p ps hskip hmatch
    rw [sdkMethodToAction]
    exact lookupAction_first d₁ d₂ name apiMethod p ps hskip hmatch

/-- C3 (witness): the amended statement at concrete datasets — an absent
name yields the empty string, and a first matching non-empty entry yields
its first identifier. -/
theorem mappingForward_witness :
    sdkMethodToAction c3Map (str "Z") = [] ∧
      sdkMethodToAction ⟨[(str "Y", []), (str "x", [⟨str "a"⟩, ⟨str "b"⟩])]⟩
        (str "X") = str "a" :=
  ⟨mappingForward_spec.1 c3Map (str "Z") (by decide),
    mappingForward_spec.2 [(str "Y", [])] [] (str "x") (str "X") ⟨str "a"⟩
      [⟨str "b"⟩] (by decide) (by decide)⟩

theorem collectMethods_mem :
    ∀ {l : List (List Char × List IamMapMethod)} {name : List Char}
      {privs : List IamMapMethod} {p : IamMapMethod},
      (name, privs) ∈ l → p ∈ privs → name ∈ collectMethods l p.action := by
  intro l
  induction l with
  | nil => intro name privs p hm _; simp at hm
  | cons pr rest ih =>
    obtain ⟨nm, ps⟩ := pr
    intro name privs p hm hp
    rw [collectMethods]
    rcases List.mem_cons.mp hm with h | h
    · have h1 : nm = name := by
        have := congrArg Prod.fst h
        simpa using this.symm
      have h2 : ps = privs := by
        have := congrArg Prod.snd h
        simpa using this.symm
      subst h1; subst h2
      refine List.mem_append_left _ ?_
      rw [List.mem_map]
      exact ⟨p, List.mem_filter.mpr ⟨hp, equalFold_refl _⟩, rfl⟩
    · exact List.mem_append_right _ (ih h hp)

/-- C4: every operation name of the dataset appears in the reverse lookup of
each of its permission identifiers. -/
theorem mappingRoundTrip :
    ∀ (m : IamMapBase) (name : List Char) (privs : List IamMapMethod)
      (p : IamMapMethod), (name, privs) ∈ m.sdkMethodIAMMappings → p ∈ privs →
      name ∈ actionToSDKMethods m p.action := by
  intro m name privs p hm hp
  rw [actionToSDKMethods]
  exact collectMethods_mem hm hp

/-- C4 (witness): the round trip at the concrete dataset `X -> [a, b]`. -/
theorem mappingRoundTrip_witness :
    str "X" ∈ actionToSDKMethods c3Map (str "b") := by
  have hb : str "b" = (⟨str "b"⟩ : IamMapMethod).action := rfl
  rw [hb]
  exact mappingRoundTrip c3Map (str "X") [⟨str "a"⟩, ⟨str "b"⟩] ⟨str "b"⟩
    (by decide) (by decide)

theorem lookupAction_fold_congr {a b : List Char} (h : equalFold a b = true) :
    ∀ d : List (List Char × List IamMapMethod), lookupAction d a = lookupAction d b := by
  intro d
  induction d with
  | nil => rfl
  | cons pr rest ih =>
    obtain ⟨nm, privs⟩ := pr
    rw [lookupAction_cons, lookupAction_cons, equalFold_congr h nm]
    by_cases he : equalFold nm b = true
    · rw [if_pos he, if_pos he]
      cases privs with
      | nil => exact ih
      | cons p ps => rfl
    · rw [if_neg he, if_neg he]
      exact ih

theorem collectMethods_fold_congr {a b : List Char} (h : equalFold a b = true) :
    ∀ d : List (List Char × List IamMapMethod), collectMethods d a = collectMethods d b := by
  intro d
  induction d with
  | nil => rfl
  | cons pr rest ih =>
    obtain ⟨nm, privs⟩ := pr
    rw [collectMethods, collectMethods, ih,
      List.filter_congr fun p _ => equalFold_congr h p.action]

theorem lookupAction_ne_nil {a : List Char} {d : List (List Char × List IamMapMethod)}
    (h : lookupAction d a ≠ []) : ∃ pr ∈ d, equalFold pr.1 a = true := by
  by_contra hc
  push_neg at hc
  refine h (lookupAction_no_match ?_)
  intro pr hpr
  have := hc pr hpr
  simpa using this

theorem collectMethods_mem_inv :
    ∀ {d : List (List Char × List IamMapMethod)} {a name : List Char},
      name ∈ collectMethods d a →
      ∃ privs, (name, privs) ∈ d ∧ ∃ p ∈ privs, equalFold p.action a = true := by
  intro d
  induction d with
  | nil => intro a name h; simp [collectMethods] at h
  | cons pr rest ih =>
    obtain ⟨nm, privs⟩ := pr
    intro a name h
    rw [collectMethods] at h
    rcases List.mem_append.mp h with h | h
    · obtain ⟨p, hpf, hpn⟩ := List.mem_map.mp h
      obtain ⟨hpm, hpe⟩ := List.mem_filter.mp hpf
      subst hpn
      exact ⟨privs, List.mem_cons_self _ _, p, hpm, hpe⟩
    · obtain ⟨privs', h1, h2⟩ := ih h
      exact ⟨privs', List.mem_cons_of_mem _ h1, h2⟩

/-- C7: both lookups are case-insensitive exact-name matches without
wildcards — fold-equal arguments give identical results, a non-empty forward
result requires a fold-equal operation name in the dataset, and every name
in the reverse result owns a record whose action is fold-equal to the
argument. -/
theorem mappingCaseInsensitive :
    (∀ (m : IamMapBase) (a b : List Char), equalFold a b = true →
      sdkMethodToAction m a = sdkMethodToAction m b) ∧
    (∀ (m : IamMapBase) (a b : List Char), equalFold a b = true →
      actionToSDKMethods m a = actionToSDKMethods m b) ∧
    (∀ (m : IamMapBase) (a : List Char), sdkMethodToAction m a ≠ [] →
      ∃ pr ∈ m.sdkMethodIAMMappings, equalFold pr.1 a = true) ∧
    (∀ (m : IamMapBase) (a name : List Char), name ∈ actionToSDKMethods m a →
      ∃ privs, (name, privs) ∈ m.sdkMethodIAMMappings ∧
        ∃ p ∈ privs, equalFold p.action a = true) := by
  refine ⟨?_, ?_, ?_, ?_⟩
  · intro m a b h
    rw [sdkMethodToAction, sdkMethodToAction]
    exact lookupAction_fold_congr h _
  · intro m a b h
    rw [actionToSDKMethods, actionToSDKMethods]
    exact collectMethods_fold_congr h _
  · intro m a h
    rw [sdkMethodToAction] at h
    exact lookupAction_ne_nil h
  · intro m a name h
    rw [actionToSDKMethods] at h
    exact collectMethods_mem_inv h

/-- C7 (witness): case-folded arguments give the same results on the
concrete dataset `X -> [a, b]`, and the inversion parts apply to its
non-empty results. -/
theorem mappingCaseInsensitive_witness :
    sdkMethodToAction c3Map (str "x") = sdkMethodToAction c3Map (str "X") ∧
    actionToSDKMethods c3Map (str "A") = actionToSDKMethods c3Map (str "a") ∧
    (∃ pr ∈ c3Map.sdkMethodIAMMappings, equalFold pr.1 (str "x") = true) ∧
    (∃ privs, (str "X", privs) ∈ c3Map.sdkMethodIAMMappings ∧
      ∃ p ∈ privs, equalFold p.action (str "B") = true) :=
  ⟨mappingCaseInsensitive.1 c3Map (str "x") (str "X") (by decide),
    mappingCaseInsensitive.2.1 c3Map (str "A") (str "a") (by decide),
    mappingCaseInsensitive.2.2.1 c3Map (str "x") (by decide),
    mappingCaseInsensitive.2.2.2 c3Map (str "B") (str "X") (by decide)⟩

theorem sdkMethodStep_mono {P : Program} {j : Nat} {m : List Char}
    (h : sdkMethodStep P false j = some m) : sdkMethodStep P true j = some m := by
  rw [sdkMethodStep] at h ⊢
  by_cases h1 : (P.fn j).hasParent
  · rw [if_pos h1] at h; cases h
  · rw [if_neg h1] at h ⊢
    by_cases h2 : sdkVersion (P.fn j) = []
    · rw [if_pos h2] at h; cases h
    · rw [if_neg h2] at h ⊢
      rw [if_neg (by simp)]
      by_cases h3 : (!false && (findPath P.graph P.roots j).isNone) = true
      · rw [if_pos h3] at h; cases h
      · rw [if_neg h3] at h
        exact h

/-- C6: every operation reported without the reflection-inclusive flag is
also reported with it — the flag only disables the path-existence filter,
so the reported set grows monotonically. -/
theorem reflectionMonotone :
    ∀ (P : Program) (m : List Char),
      m ∈ sdkMethodsOf P false → m ∈ sdkMethodsOf P true := by
  intro P m hm
  rw [sdkMethodsOf, List.mem_filterMap] at hm ⊢
  obtain ⟨i, hi, hsome⟩ := hm
  refine ⟨i, hi, ?_⟩
  by_cases h1 : (P.fn i).synthetic ≠ []
  · rw [if_pos h1] at hsome; cases hsome
  · rw [if_neg h1] at hsome ⊢
    exact sdkMethodStep_mono hsome

/-- The scenario program of the spec: `main` (node 0) statically calls a v2
SDK operation (node 1). -/
def exMainFn : Fn :=
  ⟨str "main", str "example.com/app", str "main", str "/app/main.go",
    [], str "example.com/app.main", true, none, false⟩

/-- The program model of the scenario: reachable `[0, 1]`, one static edge
from `main` to the SDK call. -/
def exProgram : Program :=
  ⟨[exMainFn, exFnV2], [0, 1], ⟨[(0, [⟨0, 1⟩])]⟩, [0]⟩

/-- C6 (witness): the SDK method reported by the default mode on the
scenario program is also reported with the reflection flag. -/
theorem reflectionMonotone_witness :
    str "ssm.GetParameter" ∈ sdkMethodsOf exProgram true :=
  reflectionMonotone exProgram (str "ssm.GetParameter") (by decide)

@[simp]
theorem isOk_error {E A : Type} (e : E) : (Except.error e : Except E A).isOk = false := rfl

@[simp]
theorem isOk_ok {E A : Type} (a : A) : (Except.ok a : Except E A).isOk = true := rfl

/-- Exit situation: no positional arguments were given (`os.Exit(2)`). -/
def condNoArgs (inp : CmdInput) : Bool := inp.args.isEmpty

/-- Exit situation: the `-why` argument does not match `service:method`. -/
def condWhyMalformed (inp : CmdInput) : Bool :=
  !inp.whyFlag.isEmpty && !whyFormatOk inp.whyFlag

/-- Exit situation: the program model cannot be built (load failure, no
packages, or packages with errors). -/
def condModelUnbuildable (inp : CmdInput) : Bool :=
  match inp.buildResult with
  | .error e => e != .noMainPackages
  | .ok _ => false

/-- Exit situation: no entry points (main packages) are found. -/
def condNoEntry (inp : CmdInput) : Bool :=
  match inp.buildResult with
  | .error e => e == .noMainPackages
  | .ok _ => false

/-- Exit situation: `-sdk-calls` and `-why` are both given. The dataset is
only loaded when `-sdk-calls` is absent (main.go:70-72), so the explain
lookup runs against the unloaded empty map and always fails. -/
def condSdkCallsWhy (inp : CmdInput) : Bool :=
  match inp.buildResult with
  | .ok _ => !inp.whyFlag.isEmpty && inp.sdkcallsFlag
  | .error _ => false

/-- Exit situation: the dataset is loaded (no `-sdk-calls`) but the `-why`
action is absent from it. -/
def condWhyUnknown (inp : CmdInput) : Bool :=
  match inp.buildResult with
  | .ok _ => !inp.whyFlag.isEmpty && whyFormatOk inp.whyFlag &&
      !inp.sdkcallsFlag && (actionToSDKMethods inp.iamMap inp.whyFlag).isEmpty
  | .error _ => false

/-- Exit situation: the dataset is loaded (no `-sdk-calls`) but the `-why`
target resolves to no call path. -/
def condWhyNoPath (inp : CmdInput) : Bool :=
  match inp.buildResult with
  | .ok P => !inp.whyFlag.isEmpty && !inp.sdkcallsFlag &&
      (explainResult P inp.iamMap inp.whyFlag).isNone
  | .error _ => false

/-- Exit situation: no privileged SDK calls are found. -/
def condNoPrivCalls (inp : CmdInput) : Bool :=
  match inp.buildResult with
  | .ok P => inp.whyFlag.isEmpty && (sdkMethodsOf P inp.reflectionFlag).isEmpty
  | .error _ => false

/-- Exit situation: privileged calls exist but none maps to a grantable
permission. -/
def condNoPermissions (inp : CmdInput) : Bool :=
  match inp.buildResult with
  | .ok P => inp.whyFlag.isEmpty && !inp.sdkcallsFlag &&
      (((sdkMethodsOf P inp.reflectionFlag).map
        (sdkMethodToAction inp.iamMap)).filter fun a => !a.isEmpty).isEmpty
  | .error _ => false

/-- C8 (amended): the process terminates with non-zero status exactly when
one of these failure situations holds: no arguments, malformed explain
argument, the program model cannot be built, no entry points, `-sdk-calls`
combined with `-why` (the dataset is never loaded, so the explain lookup
always fails), unknown explain action, explain target with no call path, no
privileged calls, or privileged calls that map to no permission. -/
theorem exitStatus_spec (inp : CmdInput) :
    (run inp).isOk = false ↔
      (condNoArgs inp || condWhyMalformed inp || condModelUnbuildable inp ||
       condNoEntry inp || condSdkCallsWhy inp || condWhyUnknown inp ||
       condWhyNoPath inp || condNoPrivCalls inp || condNoPermissions inp) = true := by
  cases hb : inp.buildResult with
  | error e =>
    have hlhs : (run inp).isOk = false := by
      unfold run
      by_cases h1 : inp.args.isEmpty
      · simp [h1]
      · by_cases h2 : (!inp.whyFlag.isEmpty && !whyFormatOk inp.whyFlag) = true
        · simp [h1, h2]
        · simp [h1, h2, hb]
    have hrhs : (condModelUnbuildable inp || condNoEntry inp) = true := by
      unfold condModelUnbuildable condNoEntry
      rw [hb]
      cases e <;> rfl
    constructor
    · intro _
      simp only [Bool.or_eq_true] at hrhs ⊢
      tauto
    · intro _
      exact hlhs
  | ok P =>
    by_cases h1 : inp.args.isEmpty
    · have hlhs : (run inp).isOk = false := by
        unfold run
        simp [h1]
      constructor
      · intro _
        have : condNoArgs inp = true := h1
        simp only [Bool.or_eq_true]
        tauto
      · intro _
        exact hlhs
    · rw [Bool.not_eq_true] at h1
      by_cases h2 : (!inp.whyFlag.isEmpty && !whyFormatOk inp.whyFlag) = true
      · have hlhs : (run inp).isOk = false := by
          unfold run
          simp [h1, h2]
        constructor
        · intro _
          have : condWhyMalformed inp = true := h2
          simp only [Bool.or_eq_true]
          tauto
        · intro _
          exact hlhs
      · rw [Bool.not_eq_true] at h2
        by_cases hw : inp.whyFlag.isEmpty
        · by_cases hms : (sdkMethodsOf P inp.reflectionFlag).isEmpty
          · have hlhs : (run inp).isOk = false := by
              unfold run
              simp [h1, h2, hb, hw, hms]
            constructor
            · intro _
              have : condNoPrivCalls inp = true := by
                unfold condNoPrivCalls
                rw [hb]
                simp [hw, hms]
              simp only [Bool.or_eq_true]
              tauto
            · intro _
              exact hlhs
          · rw [Bool.not_eq_true] at hms
            by_cases hsc : inp.sdkcallsFlag
            · have hlhs : (run inp).isOk = true := by
                unfold run
                simp [h1, h2, hb, hw, hms, hsc]
              constructor
              · intro hfalse
                rw [hlhs] at hfalse
                cases hfalse
              · intro hc
                exfalso
                revert hc
                unfold condNoArgs condWhyMalformed condModelUnbuildable condNoEntry
                  condSdkCallsWhy condWhyUnknown condWhyNoPath condNoPrivCalls
                  condNoPermissions
                simp [h1, h2, hb, hw, hms, hsc]
            · rw [Bool.not_eq_true] at hsc
              have hload : loadedMap inp = inp.iamMap := by
                rw [loadedMap, hsc]
                rfl
              by_cases hact : (((sdkMethodsOf P inp.reflectionFlag).map
                  (sdkMethodToAction inp.iamMap)).filter fun a => !a.isEmpty).isEmpty
              · have hlhs : (run inp).isOk = false := by
                  unfold run
                  simp [h1, h2, hb, hw, hms, hsc, hload, hact]
                constructor
                · intro _
                  have : condNoPermissions inp = true := by
                    unfold condNoPermissions
                    rw [hb]
                    simp [hw, hsc, hact]
                  simp only [Bool.or_eq_true]
                  tauto
                · intro _
                  exact hlhs
              · rw [Bool.not_eq_true] at hact
                have hlhs : (run inp).isOk = true := by
                  unfold run
                  simp [h1, h2, hb, hw, hms, hsc, hload, hact]
                constructor
                · intro hfalse
                  rw [hlhs] at hfalse
                  cases hfalse
                · intro hc
                  exfalso
                  revert hc
                  unfold condNoArgs condWhyMalformed condModelUnbuildable condNoEntry
                    condSdkCallsWhy condWhyUnknown condWhyNoPath condNoPrivCalls
                    condNoPermissions
                  simp [h1, h2, hb, hw, hms, hsc, hact]
        · rw [Bool.not_eq_true] at hw
          have hfmt : whyFormatOk inp.whyFlag = true := by
            cases hf : whyFormatOk inp.whyFlag with
            | true => rfl
            | false =>
              rw [hw, hf] at h2
              simp at h2
          by_cases hsc : inp.sdkcallsFlag
          · have hempty : (actionToSDKMethods (loadedMap inp) inp.whyFlag).isEmpty = true := by
              simp [loadedMap, hsc, actionToSDKMethods, collectMethods]
            have hlhs : (run inp).isOk = false := by
              unfold run
              simp [h1, h2, hb, hw, hfmt, hempty]
            constructor
            · intro _
              have : condSdkCallsWhy inp = true := by
                unfold condSdkCallsWhy
                rw [hb]
                simp [hw, hsc]
              simp only [Bool.or_eq_true]
              tauto
            · intro _
              exact hlhs
          · rw [Bool.not_eq_true] at hsc
            have hload : loadedMap inp = inp.iamMap := by
              rw [loadedMap, hsc]
              rfl
            by_cases hme : (actionToSDKMethods inp.iamMap inp.whyFlag).isEmpty
            · have hlhs : (run inp).isOk = false := by
                unfold run
                simp [h1, h2, hb, hw, hfmt, hload, hme]
              constructor
              · intro _
                have : condWhyUnknown inp = true := by
                  unfold condWhyUnknown
                  rw [hb]
                  simp [hw, hfmt, hsc, hme]
                simp only [Bool.or_eq_true]
                tauto
              · intro _
                exact hlhs
            · rw [Bool.not_eq_true] at hme
              cases her : explainResult P inp.iamMap inp.whyFlag with
              | some path =>
                have hlhs : (run inp).isOk = true := by
                  unfold run
                  simp [h1, h2, hb, hw, hfmt, hload, hme, her]
                constructor
                · intro hfalse
                  rw [hlhs] at hfalse
                  cases hfalse
                · intro hc
                  exfalso
                  revert hc
                  unfold condNoArgs condWhyMalformed condModelUnbuildable condNoEntry
                    condSdkCallsWhy condWhyUnknown condWhyNoPath condNoPrivCalls
                    condNoPermissions
                  simp [h1, h2, hb, hw, hsc, hfmt, hme, her]
              | none =>
                have hlhs : (run inp).isOk = false := by
                  unfold run
                  simp [h1, h2, hb, hw, hfmt, hload, hme, her]
                constructor
                · intro _
                  have : condWhyNoPath inp = true := by
                    unfold condWhyNoPath
                    rw [hb]
                    simp [hw, hsc, her]
                  simp only [Bool.or_eq_true]
                  tauto
                · intro _
                  exact hlhs

/-- Input on which the process exits non-zero (no permission maps to the
reachable SDK call) although none of the five claimed failure situations
holds. -/
def c8Inp : CmdInput :=
  ⟨[str "."], false, false, [], .ok exProgram, ⟨[]⟩, fun _ => [], fun _ => []⟩

/-- C8 (counterexample): at `c8Inp` the process terminates with non-zero
status (no grantable permission found), yet none of the claimed failure
situations — unbuildable model, no entry points, no privileged calls,
malformed explain argument, explain target without a path — holds, so the
claimed "exactly these" equivalence fails. -/
theorem exitStatus_counterexample :
    ¬ (((run c8Inp).isOk = false) ↔
      (condModelUnbuildable c8Inp || condNoEntry c8Inp || condNoPrivCalls c8Inp ||
       condWhyMalformed c8Inp || condWhyNoPath c8Inp) = true) := by
  decide

/-- C8 (witness): the amended equivalence evaluated at `c8Inp`. -/
theorem exitStatus_witness :
    (run c8Inp).isOk = false ↔
      (condNoArgs c8Inp || condWhyMalformed c8Inp || condModelUnbuildable c8Inp ||
       condNoEntry c8Inp || condSdkCallsWhy c8Inp || condWhyUnknown c8Inp ||
       condWhyNoPath c8Inp || condNoPrivCalls c8Inp || condNoPermissions c8Inp) = true :=
  exitStatus_spec c8Inp

theorem firstSome_isSome {α β : Type} (f : α → Option β) :
    ∀ l : List α, (firstSome f l).isSome = true ↔ ∃ a ∈ l, (f a).isSome = true := by
  intro l
  induction l with
  | nil => simp [firstSome]
  | cons a l ih =>
    rw [firstSome]
    cases hf : f a with
    | some b => simp [hf]
    | none => simp [hf, ih]

theorem collectMethods_mem_fold :
    ∀ {d : List (List Char × List IamMapMethod)} {name a : List Char}
      {privs : List IamMapMethod} {p : IamMapMethod},
      (name, privs) ∈ d → p ∈ privs → equalFold p.action a = true →
      name ∈ collectMethods d a := by
  intro d
  induction d with
  | nil => intro name a privs p hm _ _; simp at hm
  | cons pr rest ih =>
    obtain ⟨nm, ps⟩ := pr
    intro name a privs p hm hp hfold
    rw [collectMethods]
    rcases List.mem_cons.mp hm with h | h
    · have h1 : nm = name := by
        have := congrArg Prod.fst h
        simpa using this.symm
      have h2 : ps = privs := by
        have := congrArg Prod.snd h
        simpa using this.symm
      subst h1; subst h2
      refine List.mem_append_left _ ?_
      rw [List.mem_map]
      exact ⟨p, List.mem_filter.mpr ⟨hp, hfold⟩, rfl⟩
    · exact List.mem_append_right _ (ih h hp hfold)

theorem collectMethods_perm_mem {d d' : List (List Char × List IamMapMethod)}
    (hperm : d.Perm d') (a x : List Char) :
    x ∈ collectMethods d a ↔ x ∈ collectMethods d' a := by
  constructor
  · intro h
    obtain ⟨privs, h1, p, h2, h3⟩ := collectMethods_mem_inv h
    exact collectMethods_mem_fold (hperm.subset h1) h2 h3
  · intro h
    obtain ⟨privs, h1, p, h2, h3⟩ := collectMethods_mem_inv h
    exact collectMethods_mem_fold (hperm.symm.subset h1) h2 h3

/-- C9 (amended): over a fixed program model, the classified-call list is
the same set whatever iteration order the reachable map yields, and the
explain mode's success does not depend on the dataset map's iteration
order; the explanation path (and hence its length) may however differ
between permutations of the dataset when several SDK methods require the
same action. -/
theorem determinismSpec :
    (∀ (P : Program) (r' : List Nat) (reflection : Bool) (m : List Char),
      r'.Perm P.reachable →
      (m ∈ sdkMethodsOf { P with reachable := r' } reflection ↔
        m ∈ sdkMethodsOf P reflection)) ∧
    (∀ (P : Program) (d d' : List (List Char × List IamMapMethod)) (why : List Char),
      d.Perm d' →
      (explainResult P ⟨d⟩ why).isSome = (explainResult P ⟨d'⟩ why).isSome) := by
  constructor
  · intro P r' reflection m hperm
    rw [sdkMethodsOf, sdkMethodsOf]
    constructor
    · intro h
      rw [List.mem_filterMap] at h ⊢
      obtain ⟨i, hi, hs⟩ := h
      exact ⟨i, hperm.subset hi, hs⟩
    · intro h
      rw [List.mem_filterMap] at h ⊢
      obtain ⟨i, hi, hs⟩ := h
      exact ⟨i, hperm.symm.subset hi, hs⟩
  · intro P d d' why hperm
    rw [Bool.eq_iff_iff, explainResult, explainResult, firstSome_isSome, firstSome_isSome]
    constructor
    · rintro ⟨m, hm, hg⟩
      exact ⟨m, (collectMethods_perm_mem hperm why m).mp hm, hg⟩
    · rintro ⟨m, hm, hg⟩
      exact ⟨m, (collectMethods_perm_mem hperm why m).mpr hm, hg⟩

/-- SDK function `DoA`, at distance 1 from the root in `c9Program`. -/
def c9FnA : Fn :=
  ⟨str "DoA", str "github.com/aws/aws-sdk-go-v2/service/svc", str "svc",
    str "/sdk/svc/api_op_DoA.go", [],
    str "(*github.com/aws/aws-sdk-go-v2/service/svc.Client).DoA",
    true, none, false⟩

/-- SDK function `DoB`, at distance 2 from the root in `c9Program`. -/
def c9FnB : Fn :=
  ⟨str "DoB", str "github.com/aws/aws-sdk-go-v2/service/svc", str "svc",
    str "/sdk/svc/api_op_DoB.go", [],
    str "(*github.com/aws/aws-sdk-go-v2/service/svc.Client).DoB",
    true, none, false⟩

/-- Intermediate helper function of `c9Program`. -/
def c9Mid : Fn :=
  ⟨str "helper", str "example.com/app", str "main", str "/app/h.go",
    [], str "example.com/app.helper", true, none, false⟩

/-- Program in which two SDK methods requiring the same action sit at
different distances from the root. -/
def c9Program : Program :=
  ⟨[exMainFn, c9FnA, c9FnB, c9Mid], [0, 1, 2, 3],
    ⟨[(0, [⟨0, 1⟩, ⟨0, 3⟩]), (3, [⟨3, 2⟩])]⟩, [0]⟩

/-- One iteration order of a dataset mapping both methods to `svc:Do`. -/
def c9d1 : List (List Char × List IamMapMethod) :=
  [(str "Svc.DoA", [⟨str "svc:Do"⟩]), (str "Svc.DoB", [⟨str "svc:Do"⟩])]

/-- The other iteration order of the same dataset map. -/
def c9d2 : List (List Char × List IamMapMethod) :=
  [(str "Svc.DoB", [⟨str "svc:Do"⟩]), (str "Svc.DoA", [⟨str "svc:Do"⟩])]

/-- C9 (counterexample): the same program model, root order, and dataset
map (two iteration orders that are permutations of each other) give
explanation paths of different lengths, refuting "identical explanation
path length". -/
theorem determinism_counterexample :
    List.Perm c9d1 c9d2 ∧
    (explainResult c9Program ⟨c9d1⟩ (str "svc:Do")).map List.length = some 1 ∧
    (explainResult c9Program ⟨c9d2⟩ (str "svc:Do")).map List.length = some 2 := by
  decide

/-- C9 (witness): the amended statement at concrete inputs — a permuted
reachable order reports the same classified call, and permuted dataset
orders agree on explain success. -/
theorem determinismSpec_witness :
    (str "ssm.GetParameter" ∈
        sdkMethodsOf { exProgram with reachable := [1, 0] } false ↔
      str "ssm.GetParameter" ∈ sdkMethodsOf exProgram false) ∧
    (explainResult c9Program ⟨c9d1⟩ (str "svc:Do")).isSome =
      (explainResult c9Program ⟨c9d2⟩ (str "svc:Do")).isSome :=
  ⟨determinismSpec.1 exProgram [1, 0] false (str "ssm.GetParameter") (by decide),
    determinismSpec.2 c9Program c9d1 c9d2 (str "svc:Do") (by decide)⟩
